import Mathlib

/-!
Verification development for the flowcraft workflow-automation runtime.

The Go sources are shallowly embedded:
* `internal/engine/executors.go` — the executor contract and the built-in
  Filter and Transform executors (the HTTP executor performs network I/O and
  is kept abstract as a parameter where it matters);
* `internal/engine/engine.go` — the recursive depth-first execution engine
  (database rows become explicit state, the unbounded recursion is given a
  fuel parameter: exhausting fuel is reported as an error and models
  nontermination);
* `internal/queue/queue.go` — the Redis-backed task queue (a Redis instance
  is modelled as named lists of serialized strings, and `encoding/json`
  marshalling of the task envelope is modelled character-exactly).

Go's dynamically typed JSON-like documents (`interface\x7b\x7d` trees decoded
by `encoding/json`) are modelled by the mutually inductive type `Json` below.
Numbers are restricted to integers (Go decodes into float64; every number
appearing in the claims is integral) and Go `nil` and JSON `null` are
identified (both are the nil interface after decoding, and marshal alike).
-/

mutual

inductive Json where
  | null : Json
  | bool (b : Bool) : Json
  | num (n : Int) : Json
  | str (s : String) : Json
  | arr (elems : JArr) : Json
  | obj (fields : JObj) : Json
  deriving DecidableEq

inductive JArr where
  | nil : JArr
  | cons (hd : Json) (tl : JArr) : JArr
  deriving DecidableEq

inductive JObj where
  | nil : JObj
  | cons (key : String) (val : Json) (tl : JObj) : JObj
  deriving DecidableEq

end

/-- The elements of a Go `[]interface\x7b\x7d` value, in order. -/
def JArr.toList : JArr → List Json
  | .nil => []
  | .cons x xs => x :: xs.toList

/-- Builds a Go `[]interface\x7b\x7d` value from a Lean list. -/
def JArr.ofList : List Json → JArr
  | [] => .nil
  | x :: xs => .cons x (JArr.ofList xs)

/-- `append xs x` models Go `append(xs, x)` on a `[]interface\x7b\x7d`. -/
def JArr.push : JArr → Json → JArr
  | .nil, x => .cons x .nil
  | .cons h t, x => .cons h (t.push x)

/-- Number of entries of a Go `map[string]interface\x7b\x7d`, `len(m)`. -/
def JObj.length : JObj → Nat
  | .nil => 0
  | .cons _ _ tl => tl.length + 1

/-- `m.lookup k` models the Go map read `v, ok := m[k]` (first binding wins;
maps built by the modelled code never bind a key twice). -/
def JObj.lookup : JObj → String → Option Json
  | .nil, _ => none
  | .cons k v tl, key => if k = key then some v else tl.lookup key

/-- `m.set k v` models the Go map write `m[k] = v`. -/
def JObj.set : JObj → String → Json → JObj
  | .nil, key, val => .cons key val .nil
  | .cons k v tl, key, val =>
      if k = key then .cons k val tl else .cons k v (tl.set key val)

/-- The fields of a Go map as an association list, in binding order. -/
def JObj.toList : JObj → List (String × Json)
  | .nil => []
  | .cons k v tl => (k, v) :: tl.toList

mutual

/-- Models `fmt.Sprintf("%v", x)` on a decoded JSON value: the nil interface
prints `<nil>`, strings print verbatim, numbers in decimal, composites in Go's
bracketed forms.  (Go prints map fields in sorted key order; the modelled code
only ever compares these strings for equality/containment and no claim depends
on the composite forms, so fields are printed in binding order here.) -/
def sprintfV : Json → String
  | .null => "<nil>"
  | .bool b => if b then "true" else "false"
  | .num n => toString n
  | .str s => s
  | .arr xs => "[" ++ String.intercalate " " (sprintfItems xs) ++ "]"
  | .obj fs => "map[" ++ String.intercalate " " (sprintfFields fs) ++ "]"

/-- The printed elements of a slice, for `sprintfV`. -/
def sprintfItems : JArr → List String
  | .nil => []
  | .cons x xs => sprintfV x :: sprintfItems xs

/-- The printed `key:value` fields of a map, for `sprintfV`. -/
def sprintfFields : JObj → List String
  | .nil => []
  | .cons k v tl => (k ++ ":" ++ sprintfV v) :: sprintfFields tl

end

/-- `charsLeading pre s` is true when `pre` is a leading segment of `s`
(character-wise); used to model Go's `strings.HasPrefix` and, reversed,
`strings.HasSuffix`. -/
def charsLeading : List Char → List Char → Bool
  | [], _ => true
  | _ :: _, [] => false
  | a :: as, b :: bs => a = b && charsLeading as bs

/-- Models `strings.Contains s sub`: some position of `s` starts with `sub`. -/
def charsInfix (sub : List Char) : List Char → Bool
  | [] => charsLeading sub []
  | c :: rest => charsLeading sub (c :: rest) || charsInfix sub rest

/-- Models `strings.Contains s sub`. -/
def strContains (s sub : String) : Bool :=
  charsInfix sub.toList s.toList

/-- Whether a character is whitespace for `strings.TrimSpace` (Go trims the
Unicode white space class; the ASCII members cover every string the modelled
code ever trims). -/
def isSpaceChar (c : Char) : Bool :=
  c = ' ' || c = '\t' || c = '\n' || c = '\r' || c = '\x0b' || c = '\x0c'

/-- Models `strings.TrimSpace` on the character list of a string. -/
def trimChars (cs : List Char) : List Char :=
  ((cs.dropWhile isSpaceChar).reverse.dropWhile isSpaceChar).reverse

/-- Models `strings.Split s "."`: splits at every `.`, keeping empty parts
(`Split("", ".")` is `[""]`). -/
def splitOnDot : List Char → List (List Char)
  | [] => [[]]
  | c :: rest =>
      if c = '.' then [] :: splitOnDot rest
      else
        match splitOnDot rest with
        | [] => [[c]]
        | g :: gs => (c :: g) :: gs

/-- `getNestedValue item fieldPath` models the two identical methods
`FilterExecutor.getNestedValue` and `TransformExecutor.getNestedValue` in
`executors.go`: an empty path returns the item itself, otherwise the path is
split on `.` and followed through nested maps, with Go `nil` (here `.null`)
returned as soon as a segment is missing or the current value is not a map. -/
def getNestedValueGo : Json → List String → Json
  | cur, [] => cur
  | cur, part :: rest =>
      match cur with
      | .obj fields =>
          match fields.lookup part with
          | some v => getNestedValueGo v rest
          | none => .null
      | _ => .null

/-- See `getNestedValueGo`; this is the method's entry point. -/
def getNestedValue (item : Json) (fieldPath : String) : Json :=
  if fieldPath = "" then item
  else getNestedValueGo item ((splitOnDot fieldPath.toList).map List.asString)

/-- Models `FilterExecutor.compareValues` (`executors.go`): `equals`,
`not_equals` and `contains` compare the `fmt.Sprintf("%v", ·)` forms;
`greater_than` and `less_than` unconditionally return false (the Go source
marks them "Simplified implementation"); unknown operators return false. -/
def compareValues (value1 value2 : Json) (operator : String) : Bool :=
  match operator with
  | "equals" => sprintfV value1 = sprintfV value2
  | "not_equals" => sprintfV value1 ≠ sprintfV value2
  | "contains" => strContains (sprintfV value1) (sprintfV value2)
  | "greater_than" => false
  | "less_than" => false
  | _ => false

/-- Models the input normalization duplicated verbatim at the top of
`FilterExecutor.Execute` and `TransformExecutor.Execute`: with exactly one
input port its value is taken (wrapped in a one-element list unless it is
already a list); otherwise the port named `input` is used if it holds a list,
and the item list stays empty if it is absent or not a list. -/
def readInputItems (input : JObj) : List Json :=
  if input.length = 1 then
    match input with
    | .cons _ v _ =>
        match v with
        | .arr xs => xs.toList
        | other => [other]
    | .nil => []
  else
    match input.lookup "input" with
    | some (.arr xs) => xs.toList
    | _ => []

namespace FilterExecutor

/-- Models `FilterExecutor.Execute` (`executors.go` lines 157–203): reads
`field` / `operator` (default `equals`) / `value` from the configuration
(with Go type assertions: a missing or non-string entry yields `""`, a
missing `value` yields nil), normalizes the input, and keeps exactly the
items whose resolved field value satisfies the operator. -/
def Execute (config input : JObj) : Except String Json :=
  let filterField := match config.lookup "field" with
    | some (.str s) => s
    | _ => ""
  let operatorRead := match config.lookup "operator" with
    | some (.str s) => s
    | _ => ""
  let filterOperator := if operatorRead = "" then "equals" else operatorRead
  let filterValue := match config.lookup "value" with
    | some v => v
    | none => .null
  let items := readInputItems input
  let filtered := items.filter fun item =>
    compareValues (getNestedValue item filterField) filterValue filterOperator
  .ok (.arr (JArr.ofList filtered))

end FilterExecutor

mutual

/-- Models `TransformExecutor.applyMapping` (`executors.go` lines 293–323):
a map template is rebuilt key by key — a string value that starts with
`\x7b\x7b` and ends with `\x7d\x7d` is replaced by the nested-path lookup of
its trimmed interior against the item, nested maps and lists recurse, and
every other value passes through; a list template recurses element-wise; any
other template is returned verbatim. -/
def applyMapping (item : Json) (mapping : Json) : Json :=
  match mapping with
  | .obj fields => .obj (applyMappingFields item fields)
  | .arr elems => .arr (applyMappingElems item elems)
  | other => other

/-- The per-field walk of `applyMapping`'s map case. -/
def applyMappingFields (item : Json) : JObj → JObj
  | .nil => .nil
  | .cons key value tl =>
      let newVal : Json :=
        match value with
        | .str v =>
            let vc := v.toList
            if charsLeading ['\x7b', '\x7b'] vc &&
                charsLeading ['\x7d', '\x7d'] vc.reverse then
              getNestedValue item
                (trimChars ((vc.take (vc.length - 2)).drop 2)).asString
            else .str v
        | .obj fs => .obj (applyMappingFields item fs)
        | .arr es => .arr (applyMappingElems item es)
        | other => other
      .cons key newVal (applyMappingFields item tl)

/-- The per-element walk of `applyMapping`'s list case. -/
def applyMappingElems (item : Json) : JArr → JArr
  | .nil => .nil
  | .cons x xs => .cons (applyMapping item x) (applyMappingElems item xs)

end

namespace TransformExecutor

/-- Models `TransformExecutor.Execute` (`executors.go` lines 251–290): fails
when the configuration has no `mapping`, otherwise normalizes the input
exactly as the filter does and applies the mapping template to every item. -/
def Execute (config input : JObj) : Except String Json :=
  match config.lookup "mapping" with
  | none => .error "mapping is required in config"
  | some mapping =>
      let items := readInputItems input
      .ok (.arr (JArr.ofList (items.map fun item => applyMapping item mapping)))

end TransformExecutor

/-- The template string of claim C2, `"\x7b\x7bfirst\x7d\x7d \x7b\x7blast\x7d\x7d"`. -/
def c2Template : String := "\x7b\x7bfirst\x7d\x7d \x7b\x7blast\x7d\x7d"

/-- The single input item of claim C2, `\x7b"first":"A","last":"B"\x7d`. -/
def c2Item : Json := .obj (.cons "first" (.str "A") (.cons "last" (.str "B") .nil))

/-- The Transform configuration of claim C2:
`\x7b"mapping": \x7b"full": "\x7b\x7bfirst\x7d\x7d \x7b\x7blast\x7d\x7d"\x7d\x7d`. -/
def c2Config : JObj := .cons "mapping" (.obj (.cons "full" (.str c2Template) .nil)) .nil

/-- The C2 item delivered on a single input port named `input`. -/
def c2Input : JObj := .cons "input" c2Item .nil

/-- C2 counterexample: the Transform executor, on the mapping
`\x7b"full": "\x7b\x7bfirst\x7d\x7d \x7b\x7blast\x7d\x7d"\x7d` and the single item
`\x7b"first":"A","last":"B"\x7d`, does NOT produce `\x7b"full":"A B"\x7d`: it
produces `\x7b"full": null\x7d`, because the whole string passes the
starts-with-`\x7b\x7b` / ends-with-`\x7d\x7d` test and is treated as a single
template whose interior path `first\x7d\x7d \x7b\x7blast` misses the item. -/
theorem claim_C2_counterexample :
    TransformExecutor.Execute c2Config c2Input
      = .ok (.arr (.cons (.obj (.cons "full" .null .nil)) .nil)) ∧
    Json.obj (.cons "full" .null .nil) ≠ .obj (.cons "full" (.str "A B") .nil) :=
  ⟨rfl, by decide⟩

/-- C2 (amended): the Transform executor, given config mapping
`\x7b"full": "\x7b\x7bfirst\x7d\x7d \x7b\x7blast\x7d\x7d"\x7d` and the single input item
`\x7b"first":"A","last":"B"\x7d`, produces the transformed document
`\x7b"full": null\x7d` for that item — a `\x7b\x7b...\x7d\x7d` placeholder is only
substituted when the entire template string is one placeholder, and here the
whole string's trimmed interior fails the nested-path lookup. -/
theorem claim_C2 :
    TransformExecutor.Execute c2Config c2Input
      = .ok (.arr (.cons (.obj (.cons "full" .null .nil)) .nil)) ∧
    applyMapping c2Item (.obj (.cons "full" (.str c2Template) .nil))
      = .obj (.cons "full" .null .nil) :=
  ⟨rfl, by decide⟩

/-- Helper: any filter run whose effective operator compares every pair of
values to false keeps no items. -/
theorem filterExecute_of_false_operator (config input : JObj) (op : String)
    (hlookup : config.lookup "operator" = some (.str op)) (hne : op ≠ "")
    (hfalse : ∀ a b : Json, compareValues a b op = false) :
    FilterExecutor.Execute config input = .ok (.arr .nil) := by
  simp only [FilterExecutor.Execute, hlookup, if_neg hne]
  have hnil :
      (readInputItems input).filter
        (fun item =>
          compareValues
            (getNestedValue item
              (match config.lookup "field" with
               | some (.str s) => s
               | _ => ""))
            (match config.lookup "value" with
             | some v => v
             | none => .null) op) = [] := by
    rw [List.filter_eq_nil_iff]
    intro a _
    simp [hfalse]
  rw [hnil]
  rfl

/-- C5: for every configuration whose `operator` entry is the string
`greater_than` or `less_than` and every input, the Filter executor's
comparison evaluates to false for every item, so the filtered output contains
no items. -/
theorem claim_C5 (config input : JObj)
    (h : config.lookup "operator" = some (.str "greater_than") ∨
         config.lookup "operator" = some (.str "less_than")) :
    (∀ a b : Json,
        compareValues a b "greater_than" = false ∧
        compareValues a b "less_than" = false) ∧
    FilterExecutor.Execute config input = .ok (.arr .nil) := by
  refine ⟨fun a b => ⟨rfl, rfl⟩, ?_⟩
  rcases h with h | h
  · exact filterExecute_of_false_operator config input "greater_than" h
      (by decide) (fun a b => rfl)
  · exact filterExecute_of_false_operator config input "less_than" h
      (by decide) (fun a b => rfl)

/-- Witness for C5 at a concrete configuration and input. -/
theorem claim_C5_witness :
    (JObj.cons "operator" (.str "greater_than") (.cons "value" (.num 3) .nil)).lookup
        "operator" = some (.str "greater_than") ∧
    FilterExecutor.Execute
        (.cons "operator" (.str "greater_than") (.cons "value" (.num 3) .nil))
        (.cons "input" (.arr (.cons (.num 5) (.cons (.num 1) .nil))) .nil)
      = .ok (.arr .nil) :=
  ⟨by decide,
   (claim_C5
      (.cons "operator" (.str "greater_than") (.cons "value" (.num 3) .nil))
      (.cons "input" (.arr (.cons (.num 5) (.cons (.num 1) .nil))) .nil)
      (Or.inl (by decide))).2⟩

/-- C9: the Filter executor never returns an error — for every configuration
document (missing or ill-typed `field`, `operator` or `value` included) and
every input map, `Execute` returns a value and no error. -/
theorem claim_C9 (config input : JObj) :
    ∃ v : Json, FilterExecutor.Execute config input = .ok v :=
  ⟨_, rfl⟩

/-- C10: the Filter executor's output is an order-preserving sublist of its
normalized input items: the output is exactly the items that pass the
comparison, kept unmodified and in input order. -/
theorem claim_C10 (config input : JObj) :
    ∃ l : List Json,
      FilterExecutor.Execute config input = .ok (.arr (JArr.ofList l)) ∧
      l.Sublist (readInputItems input) :=
  ⟨_, rfl, List.filter_sublist _⟩

/-- Models `models.Node` (`workflow.go`): the fields the engine reads — the
primary key, the `node_type` key and the configuration document (`Config` is
a JSON string in Go and is kept here as the parsed document; a string that is
not valid JSON is represented by a non-object document, which makes
`json.Unmarshal` into a map fail exactly as in Go). -/
structure Node where
  id : Nat
  nodeType : String
  config : Json
  deriving DecidableEq

/-- Models `models.Connection` (`workflow.go`): a directed, named-port edge. -/
structure Connection where
  id : Nat
  sourceNodeId : Nat
  targetNodeId : Nat
  sourceHandle : String
  targetHandle : String
  deriving DecidableEq

/-- Models `models.Workflow` restricted to what the engine loads: the node
and connection tables of the workflow, in primary-key order (the order GORM
returns rows in for the engine's queries). -/
structure Workflow where
  nodes : List Node
  connections : List Connection
  deriving DecidableEq

/-- Models `models.NodeType`: maps a type key to an executor class. -/
structure NodeType where
  key : String
  executorClass : String
  deriving DecidableEq

/-- Models `models.NodeExecution` (`execution.go`), one step-run row.  The
start/completion timestamps are dropped: no claim mentions them.  `InputData`
and `OutputData` are JSON strings in Go and are kept as documents here. -/
structure NodeExecution where
  workflowExecutionId : Nat
  nodeId : Nat
  status : String
  inputData : Json
  outputData : Json
  errorMessage : String
  deriving DecidableEq

/-- Models `models.WorkflowExecution` (`execution.go`), the Run row, without
the timestamps. -/
structure WorkflowExecution where
  id : Nat
  workflowId : Nat
  status : String
  inputData : Json
  outputData : Json
  errorMessage : String
  deriving DecidableEq

/-- The mutable state an engine run reads and writes: the `node_executions`
table (rows in creation order; GORM's `Create` appends a row, `Save` updates
it in place by primary key) together with the in-memory
`ExecutionContext.Results` table of `engine.go`. -/
structure EngineState where
  stepRuns : List NodeExecution
  results : List (Nat × Json)
  deriving DecidableEq

/-- The environment an engine run resolves executors in: the `node_types`
table and `LoadExecutor` (`executors.go`).  `loadExecutor` is kept abstract
because the real one can reach the HTTP executor (network I/O) and Go plugin
loading (filesystem); `pureLoadExecutor` below instantiates it with the pure
built-ins. -/
structure Env where
  nodeTypes : List NodeType
  loadExecutor : String → Except String (JObj → JObj → Except String Json)

/-- Models `LoadExecutor` (`executors.go` lines 18–36) over the pure
built-ins: `filter` and `transform` resolve to the modelled executors,
`httpRequest` and `plugin:`-prefixed classes are abstracted as the two
function parameters (network and filesystem effects), anything else fails
with the source's error text. -/
def pureLoadExecutor
    (httpExec : JObj → JObj → Except String Json)
    (pluginLoad : String → Except String (JObj → JObj → Except String Json))
    (executorClass : String) : Except String (JObj → JObj → Except String Json) :=
  match executorClass with
  | "httpRequest" => .ok httpExec
  | "filter" => .ok FilterExecutor.Execute
  | "transform" => .ok TransformExecutor.Execute
  | _ =>
      if charsLeading "plugin:".toList executorClass.toList then
        pluginLoad (List.asString (executorClass.toList.drop 7))
      else .error ("unknown executor class: " ++ executorClass)

/-- `context.Results[k]` (a Go map read). -/
def resultsLookup (rs : List (Nat × Json)) (k : Nat) : Option Json :=
  (rs.find? fun p => p.1 == k).map (·.2)

/-- `context.Results[k] = v` (a Go map write: overwrite or add). -/
def setResult : List (Nat × Json) → Nat → Json → List (Nat × Json)
  | [], k, v => [(k, v)]
  | (k', v') :: rest, k, v =>
      if k' = k then (k, v) :: rest else (k', v') :: setResult rest k v

/-- `DB.Save` of step-run row `k`: update row `k` in place. -/
def listModify (f : NodeExecution → NodeExecution) :
    Nat → List NodeExecution → List NodeExecution
  | _, [] => []
  | 0, x :: xs => f x :: xs
  | n + 1, x :: xs => x :: listModify f n xs

/-- State update applying `DB.Save` to step-run row `k`. -/
def updateStepRun (st : EngineState) (k : Nat) (f : NodeExecution → NodeExecution) :
    EngineState :=
  { st with stepRuns := listModify f k st.stepRuns }

namespace Engine

/-- The current list stored under a handle in the aggregation map: Go
ensures the entry exists (initializing it to an empty list) and reads it
back with the type assertion `.([]interface\x7b\x7d)`, whose zero value
models a (never occurring) non-list entry as the empty list. -/
def entryArr : Option Json → JArr
  | some (.arr a) => a
  | some _ => .nil
  | none => .nil

/-- The inner loop of `Engine.prepareNodeInput` (`engine.go` lines 202–214):
for each incoming connection whose source already has a recorded result,
append that result to the list under the connection's target handle. -/
def prepareInputsLoop (results : List (Nat × Json)) :
    List Connection → JObj → JObj
  | [], inputs => inputs
  | c :: cs, inputs =>
      match resultsLookup results c.sourceNodeId with
      | some r =>
          let cur : JArr := entryArr (inputs.lookup c.targetHandle)
          prepareInputsLoop results cs (inputs.set c.targetHandle (.arr (cur.push r)))
      | none => prepareInputsLoop results cs inputs

/-- Models `Engine.prepareNodeInput` (`engine.go` lines 190–217): with no
incoming connection the node receives the Run's parsed input document
directly; otherwise the recorded outputs of already-completed sources are
grouped by target handle in connection order. -/
def prepareNodeInput (connections : List Connection) (node : Node)
    (ctxInput : JObj) (results : List (Nat × Json)) : JObj :=
  let conns := connections.filter fun c => c.targetNodeId == node.id
  if conns.isEmpty then ctxInput
  else prepareInputsLoop results conns .nil

/-- Models `Engine.allInputsReady` (`engine.go` lines 220–235): every
connection targeting the node must have, in the current Run, a step-run row
for its source node with status `completed`. -/
def allInputsReady (connections : List Connection) (nodeId executionId : Nat)
    (stepRuns : List NodeExecution) : Bool :=
  (connections.filter fun c => c.targetNodeId == nodeId).all fun c =>
    stepRuns.any fun ne =>
      ne.workflowExecutionId == executionId &&
      ne.nodeId == c.sourceNodeId &&
      ne.status == "completed"

/-- The straight-line part of `Engine.executeNode` (`engine.go` lines
103–169), i.e. everything before the successor loop, in source order: load
the node row (`DB.First`, error `record not found` when absent — before any
row is created), load its node type by key (likewise), create the step-run
row with status `running`, aggregate the input and save it on the row, load
the executor (failure: row set `failed` with `failed to load executor:`
text, the load error returned), parse the node configuration — a
non-object document makes `json.Unmarshal` into a map fail (row set `failed`
with `failed to parse node config:` text, the parse error returned) — invoke
the executor (failure: row set `failed` with `execution failed:` text, the
executor's error returned), and on success save the output, mark the row
`completed` and record the result in the context's result table. -/
def runNodeBody (env : Env) (wf : Workflow) (ctxInput : JObj)
    (nodeID executionID : Nat) (st : EngineState) : EngineState × Option String :=
  match wf.nodes.find? fun n => n.id == nodeID with
  | none => (st, some "record not found")
  | some node =>
    match env.nodeTypes.find? fun t => t.key == node.nodeType with
    | none => (st, some "record not found")
    | some nodeType =>
      let k := st.stepRuns.length
      let ne0 : NodeExecution :=
        { workflowExecutionId := executionID, nodeId := nodeID,
          status := "running", inputData := .null, outputData := .null,
          errorMessage := "" }
      let st1 : EngineState := { st with stepRuns := st.stepRuns ++ [ne0] }
      let inputData := prepareNodeInput wf.connections node ctxInput st1.results
      let st2 := updateStepRun st1 k fun ne => { ne with inputData := .obj inputData }
      match env.loadExecutor nodeType.executorClass with
      | .error e =>
          (updateStepRun st2 k fun ne =>
            { ne with status := "failed",
                      errorMessage := "failed to load executor: " ++ e },
           some e)
      | .ok exec =>
        match node.config with
        | .obj config =>
          match exec config inputData with
          | .error e =>
              (updateStepRun st2 k fun ne =>
                { ne with status := "failed",
                          errorMessage := "execution failed: " ++ e },
               some e)
          | .ok result =>
              let st3 := updateStepRun st2 k fun ne =>
                { ne with outputData := result, status := "completed" }
              ({ st3 with results := setResult st3.results nodeID result }, none)
        | _ =>
            (updateStepRun st2 k fun ne =>
              { ne with status := "failed",
                        errorMessage :=
                          "failed to parse node config: json: cannot unmarshal" },
             some "json: cannot unmarshal")

/-- The successor loop at the end of `Engine.executeNode` (`engine.go` lines
172–184): for each connection out of the finished node, in table order,
re-check readiness of the target and recurse into it when ready; a failing
recursive call aborts the loop and propagates its error.  The recursive call
into the target is the parameter `go` (it is `executeNode` at one fuel less,
passed explicitly so that the mutual recursion of the Go source becomes
structural recursion on fuel). -/
def runSuccessors (env : Env) (wf : Workflow) (ci : JObj)
    (go : Nat → Nat → EngineState → EngineState × Option String) :
    List Connection → Nat → EngineState → EngineState × Option String
  | [], _, st => (st, none)
  | c :: cs, executionID, st =>
      if Engine.allInputsReady wf.connections c.targetNodeId executionID st.stepRuns then
        match go c.targetNodeId executionID st with
        | (st', none) => runSuccessors env wf ci go cs executionID st'
        | (st', some e) => (st', some e)
      else runSuccessors env wf ci go cs executionID st

/-- Models `Engine.executeNode` (`engine.go` lines 102–187): the
straight-line body `runNodeBody` followed, on success, by the successor
loop.  The fuel argument bounds the recursion depth (the Go function
recurses unboundedly on cyclic graphs); exhausted fuel is returned as the
error `"out of fuel"`. -/
def executeNode (env : Env) (wf : Workflow) (ci : JObj) :
    Nat → Nat → Nat → EngineState → EngineState × Option String
  | 0, _, _, st => (st, some "out of fuel")
  | fuel + 1, nodeID, executionID, st =>
      match runNodeBody env wf ci nodeID executionID st with
      | (st', some e) => (st', some e)
      | (st', none) =>
          runSuccessors env wf ci
            (fun n eid s => executeNode env wf ci fuel n eid s)
            (wf.connections.filter fun c => c.sourceNodeId == nodeID)
            executionID st'

/-- The start-node computation of `Engine.executeWorkflowInternal`
(`engine.go` lines 56–69): the nodes with no incoming connection, in node
table order. -/
def startNodes (wf : Workflow) : List Node :=
  wf.nodes.filter fun n => !(wf.connections.any fun c => c.targetNodeId == n.id)

/-- The start-node loop of `Engine.executeWorkflowInternal` (`engine.go`
lines 85–89): execute each start node in order, aborting on the first error. -/
def runStartNodes (env : Env) (wf : Workflow) (ctxInput : JObj) (fuel : Nat) :
    List Node → Nat → EngineState → EngineState × Option String
  | [], _, st => (st, none)
  | n :: ns, executionID, st =>
      match executeNode env wf ctxInput fuel n.id executionID st with
      | (st', none) => runStartNodes env wf ctxInput fuel ns executionID st'
      | (st', some e) => (st', some e)

/-- Models `json.Marshal(context.Results)` (`engine.go` line 92): the result
table keyed by the decimal node identifier.  (Go sorts the marshalled map's
keys; the binding order is kept here, and no claim inspects this document.) -/
def resultsToJObj : List (Nat × Json) → JObj
  | [] => .nil
  | (k, v) :: rest => .cons (toString k) v (resultsToJObj rest)

/-- Models `Engine.executeWorkflowInternal` (`engine.go` lines 52–99): find
the start nodes (error `workflow has no start nodes` if none — checked
before the input document is parsed), parse the Run's input document (Go's
`json.Unmarshal` of JSON `null` into a map yields the empty map without
error; a non-object document fails), execute the start nodes, and on success
marshal the result table into the Run's output document. -/
def executeWorkflowInternal (env : Env) (wf : Workflow) (fuel : Nat)
    (execution : WorkflowExecution) (st : EngineState) :
    WorkflowExecution × EngineState × Option String :=
  let sns := startNodes wf
  if sns.isEmpty then (execution, st, some "workflow has no start nodes")
  else
    let parsed : Except String JObj :=
      match execution.inputData with
      | .obj o => .ok o
      | .null => .ok .nil
      | _ => .error "json: cannot unmarshal"
    match parsed with
    | .error e => (execution, st, some ("failed to parse input data: " ++ e))
    | .ok ctxInput =>
        match runStartNodes env wf ctxInput fuel sns execution.id st with
        | (st', none) =>
            ({ execution with outputData := .obj (resultsToJObj st'.results) },
             st', none)
        | (st', some e) => (execution, st', some e)

/-- Models `Engine.ExecuteWorkflow` (`engine.go` lines 22–49): set the Run
`running`, run the traversal, then set `completed`, or `failed` with the
error text of the first failure. -/
def ExecuteWorkflow (env : Env) (wf : Workflow) (fuel : Nat)
    (execution : WorkflowExecution) (st : EngineState) :
    WorkflowExecution × EngineState :=
  match executeWorkflowInternal env wf fuel { execution with status := "running" } st with
  | (ex, st', some e) => ({ ex with status := "failed", errorMessage := e }, st')
  | (ex, st', none) => ({ ex with status := "completed" }, st')

end Engine

/-- A concrete environment with a single `noop` node type whose executor
always succeeds with `null`; used for the concrete engine runs below. -/
def noopEnv : Env :=
  { nodeTypes := [⟨"noop", "noopClass"⟩],
    loadExecutor := fun s =>
      if s == "noopClass" then .ok fun _ _ => .ok .null
      else .error ("unknown executor class: " ++ s) }

/-- A concrete pending Run record with an empty input document. -/
def run0 : WorkflowExecution :=
  { id := 7, workflowId := 1, status := "pending", inputData := .obj .nil,
    outputData := .null, errorMessage := "" }

/-- The triangle workflow 1→2, 1→3, 2→3: acyclic (node ids are a
topological order), with node 3 reachable along two paths. -/
def triWf : Workflow :=
  { nodes := [⟨1, "noop", .obj .nil⟩, ⟨2, "noop", .obj .nil⟩, ⟨3, "noop", .obj .nil⟩],
    connections := [⟨1, 1, 2, "output", "input"⟩, ⟨2, 1, 3, "output", "input"⟩,
                    ⟨3, 2, 3, "output", "input"⟩] }

/-- The diamond workflow 1→2, 1→3, 2→4, 3→4. -/
def diaWf : Workflow :=
  { nodes := [⟨1, "noop", .obj .nil⟩, ⟨2, "noop", .obj .nil⟩,
              ⟨3, "noop", .obj .nil⟩, ⟨4, "noop", .obj .nil⟩],
    connections := [⟨1, 1, 2, "output", "input"⟩, ⟨2, 1, 3, "output", "input"⟩,
                    ⟨3, 2, 4, "output", "input"⟩, ⟨4, 3, 4, "output", "input"⟩] }

/-- A two-node cycle 1→2, 2→1: every node has an incoming connection. -/
def cycWf : Workflow :=
  { nodes := [⟨1, "noop", .obj .nil⟩, ⟨2, "noop", .obj .nil⟩],
    connections := [⟨1, 1, 2, "output", "input"⟩, ⟨2, 2, 1, "output", "input"⟩] }

/-- C7: for every Run of a workflow in which every node has at least one
incoming connection (so the start-node set is empty), execution fails with
the `NoStartNodeError` text `workflow has no start nodes`, the Run is marked
`failed` with that text, and the step-run state is left untouched — no
step-run is created for any node. -/
theorem claim_C7 (env : Env) (wf : Workflow) (fuel : Nat)
    (execution : WorkflowExecution) (st : EngineState)
    (h : ∀ n ∈ wf.nodes, ∃ c ∈ wf.connections, c.targetNodeId = n.id) :
    Engine.executeWorkflowInternal env wf fuel execution st
      = (execution, st, some "workflow has no start nodes") ∧
    (Engine.ExecuteWorkflow env wf fuel execution st).1.status = "failed" ∧
    (Engine.ExecuteWorkflow env wf fuel execution st).1.errorMessage
      = "workflow has no start nodes" ∧
    (Engine.ExecuteWorkflow env wf fuel execution st).2 = st := by
  have hsn : Engine.startNodes wf = [] := by
    rw [Engine.startNodes, List.filter_eq_nil_iff]
    intro n hn
    obtain ⟨c, hc, hct⟩ := h n hn
    simp only [Bool.not_eq_true', Bool.not_eq_false, List.any_eq_true]
    exact ⟨c, hc, by simp [hct]⟩
  refine ⟨?_, ?_, ?_, ?_⟩ <;>
    simp [Engine.ExecuteWorkflow, Engine.executeWorkflowInternal, hsn]

/-- Witness for C7 on the concrete two-node cycle. -/
theorem claim_C7_witness :
    (∀ n ∈ cycWf.nodes, ∃ c ∈ cycWf.connections, c.targetNodeId = n.id) ∧
    Engine.executeWorkflowInternal noopEnv cycWf 9 run0 ⟨[], []⟩
      = (run0, ⟨[], []⟩, some "workflow has no start nodes") ∧
    (Engine.ExecuteWorkflow noopEnv cycWf 9 run0 ⟨[], []⟩).1.status = "failed" :=
  ⟨by decide,
   (claim_C7 noopEnv cycWf 9 run0 ⟨[], []⟩ (by decide)).1,
   (claim_C7 noopEnv cycWf 9 run0 ⟨[], []⟩ (by decide)).2.1⟩

/-- C6: for a Run (started on an empty step-run table) of a workflow with
exactly one node and no connections, whose resolved executor invocation
returns an error, the Run ends `failed` with the executor's (non-empty)
error text, and exactly one step-run exists for the Run — for that node,
with status `failed` and the `execution failed:` error text recorded. -/
theorem claim_C6 (env : Env) (node : Node) (fuel : Nat)
    (execution : WorkflowExecution) (nt : NodeType)
    (f : JObj → JObj → Except String Json) (config inp0 : JObj) (msg : String)
    (hin : execution.inputData = .obj inp0)
    (hnt : env.nodeTypes.find? (fun t => t.key == node.nodeType) = some nt)
    (hload : env.loadExecutor nt.executorClass = .ok f)
    (hcfg : node.config = .obj config)
    (hexec : f config inp0 = .error msg)
    (hmsg : msg ≠ "") :
    (Engine.ExecuteWorkflow env ⟨[node], []⟩ (fuel + 1) execution ⟨[], []⟩).1.status
      = "failed" ∧
    (Engine.ExecuteWorkflow env ⟨[node], []⟩ (fuel + 1) execution ⟨[], []⟩).1.errorMessage
      = msg ∧
    (Engine.ExecuteWorkflow env ⟨[node], []⟩ (fuel + 1) execution ⟨[], []⟩).1.errorMessage
      ≠ "" ∧
    (Engine.ExecuteWorkflow env ⟨[node], []⟩ (fuel + 1) execution ⟨[], []⟩).2.stepRuns
      = [{ workflowExecutionId := execution.id, nodeId := node.id,
           status := "failed", inputData := .obj inp0, outputData := .null,
           errorMessage := "execution failed: " ++ msg }] := by
  have hrun :
      Engine.executeNode env ⟨[node], []⟩ inp0 (fuel + 1) node.id execution.id ⟨[], []⟩
        = (⟨[{ workflowExecutionId := execution.id, nodeId := node.id,
               status := "failed", inputData := .obj inp0, outputData := .null,
               errorMessage := "execution failed: " ++ msg }], []⟩, some msg) := by
    rw [Engine.executeNode, Engine.runNodeBody]
    simp only [List.find?, beq_self_eq_true, hnt, hload, hcfg, hexec,
      Engine.prepareNodeInput, List.filter_nil, List.isEmpty_nil, if_true,
      updateStepRun, listModify, List.nil_append]
  have hstart : Engine.startNodes ⟨[node], []⟩ = [node] := by
    simp [Engine.startNodes]
  rw [Engine.ExecuteWorkflow, Engine.executeWorkflowInternal]
  simp only [hstart, List.isEmpty_cons, hin, Engine.runStartNodes, hrun]
  exact ⟨rfl, rfl, hmsg, rfl⟩

/-- A single-node workflow whose node's configuration lacks the required
`mapping` entry for the `transform` executor. -/
def failWf : Workflow :=
  { nodes := [⟨1, "transform", .obj .nil⟩], connections := [] }

/-- The environment resolving the `transform` node type to the built-in
Transform executor (the pure `LoadExecutor` instantiation). -/
def transformEnv : Env :=
  { nodeTypes := [⟨"transform", "transform"⟩],
    loadExecutor := pureLoadExecutor (fun _ _ => .error "no network") (fun _ => .error "no plugin") }

/-- Witness for C6: the concrete single-`transform`-node Run whose executor
fails with `mapping is required in config`. -/
theorem claim_C6_witness :
    (Engine.ExecuteWorkflow transformEnv failWf 9 run0 ⟨[], []⟩).1.status = "failed" ∧
    (Engine.ExecuteWorkflow transformEnv failWf 9 run0 ⟨[], []⟩).1.errorMessage
      = "mapping is required in config" ∧
    (Engine.ExecuteWorkflow transformEnv failWf 9 run0 ⟨[], []⟩).2.stepRuns
      = [{ workflowExecutionId := 7, nodeId := 1, status := "failed",
           inputData := .obj .nil, outputData := .null,
           errorMessage := "execution failed: mapping is required in config" }] := by
  have h := claim_C6 transformEnv ⟨1, "transform", .obj .nil⟩ 8 run0
    ⟨"transform", "transform"⟩ TransformExecutor.Execute .nil .nil
    "mapping is required in config" rfl rfl rfl rfl rfl (by decide)
  exact ⟨h.1, h.2.1, h.2.2.2⟩

theorem JArr.toList_push : ∀ (a : JArr) (x : Json), (a.push x).toList = a.toList ++ [x]
  | .nil, _ => rfl
  | .cons h t, x => by simp [JArr.push, JArr.toList, JArr.toList_push t x]

theorem JArr.ofList_toList : ∀ a : JArr, JArr.ofList a.toList = a
  | .nil => rfl
  | .cons h t => by simp [JArr.toList, JArr.ofList, JArr.ofList_toList t]

theorem JArr.push_eq_ofList (a : JArr) (x : Json) :
    a.push x = JArr.ofList (a.toList ++ [x]) := by
  rw [← JArr.toList_push, JArr.ofList_toList]

theorem JObj.lookup_set_self : ∀ (m : JObj) (k : String) (v : Json),
    (m.set k v).lookup k = some v
  | .nil, k, v => by simp [JObj.set, JObj.lookup]
  | .cons k' v' tl, k, v => by
      by_cases h : k' = k
      · simp [JObj.set, JObj.lookup, h]
      · simp [JObj.set, JObj.lookup, h, JObj.lookup_set_self tl k v]

theorem JObj.lookup_set_ne : ∀ (m : JObj) (k k' : String) (v : Json), k ≠ k' →
    (m.set k v).lookup k' = m.lookup k'
  | .nil, k, k', v, h => by simp [JObj.set, JObj.lookup, h]
  | .cons k0 v0 tl, k, k', v, h => by
      by_cases h0 : k0 = k
      · simp [JObj.set, JObj.lookup, h0, h, (h0.symm ▸ h : k0 ≠ k')]
      · simp [JObj.set, JObj.lookup, h0, JObj.lookup_set_ne tl k k' v h]

/-- The list of recorded outputs of the already-completed sources of a
connection list, in connection order — the spec's description of fan-in
aggregation, used to state claim C4 against `Engine.prepareNodeInput`. -/
def gatherOutputs (results : List (Nat × Json)) (conns : List Connection) : List Json :=
  conns.filterMap fun c => resultsLookup results c.sourceNodeId

theorem gatherOutputs_cons_some {results : List (Nat × Json)} {c : Connection}
    {r : Json} (cs : List Connection)
    (h : resultsLookup results c.sourceNodeId = some r) :
    gatherOutputs results (c :: cs) = r :: gatherOutputs results cs := by
  simp [gatherOutputs, List.filterMap_cons, h]

theorem gatherOutputs_cons_none {results : List (Nat × Json)} {c : Connection}
    (cs : List Connection)
    (h : resultsLookup results c.sourceNodeId = none) :
    gatherOutputs results (c :: cs) = gatherOutputs results cs := by
  simp [gatherOutputs, List.filterMap_cons, h]

/-- What `Engine.prepareInputsLoop` leaves under each handle: the entry it
started with (as a list) extended by the gathered outputs of the connections
for that handle, or the untouched original entry when no connection
contributes. -/
theorem prepareInputsLoop_lookup (results : List (Nat × Json)) (h : String)
    (conns : List Connection) (acc : JObj) :
    (Engine.prepareInputsLoop results conns acc).lookup h =
      if gatherOutputs results (conns.filter fun c => c.targetHandle == h) = [] then
        acc.lookup h
      else
        some (.arr (JArr.ofList
          ((Engine.entryArr (acc.lookup h)).toList ++
           gatherOutputs results (conns.filter fun c => c.targetHandle == h)))) := by
  induction conns generalizing acc with
  | nil => simp [Engine.prepareInputsLoop, gatherOutputs]
  | cons c cs ih =>
      rcases hres : resultsLookup results c.sourceNodeId with _ | r
      · simp only [Engine.prepareInputsLoop, hres]
        rw [ih]
        by_cases hch : (c.targetHandle == h) = true
        · have hfc : List.filter (fun x => x.targetHandle == h) (c :: cs)
              = c :: List.filter (fun x => x.targetHandle == h) cs := by
            simp [List.filter_cons, hch]
          rw [hfc, gatherOutputs_cons_none _ hres]
        · have hfc : List.filter (fun x => x.targetHandle == h) (c :: cs)
              = List.filter (fun x => x.targetHandle == h) cs := by
            simp [List.filter_cons, hch]
          rw [hfc]
      · simp only [Engine.prepareInputsLoop, hres]
        rw [ih]
        by_cases hch : (c.targetHandle == h) = true
        · have heq : c.targetHandle = h := by simpa using hch
          have hfc : List.filter (fun x => x.targetHandle == h) (c :: cs)
              = c :: List.filter (fun x => x.targetHandle == h) cs := by
            simp [List.filter_cons, hch]
          rw [hfc, gatherOutputs_cons_some _ hres, heq, JObj.lookup_set_self]
          rcases hog : gatherOutputs results (cs.filter fun c => c.targetHandle == h)
            with _ | ⟨o, os⟩
          · simp [Engine.entryArr, JArr.push_eq_ofList]
          · simp [Engine.entryArr, JArr.toList_push, List.append_assoc]
        · have hne : c.targetHandle ≠ h := by simpa using hch
          have hfc : List.filter (fun x => x.targetHandle == h) (c :: cs)
              = List.filter (fun x => x.targetHandle == h) cs := by
            simp [List.filter_cons, hch]
          rw [hfc, JObj.lookup_set_ne _ _ _ _ hne]

/-- C4: input aggregation for a node — if the node has at least one incoming
connection, its prepared input maps each target handle to the list of the
recorded outputs of the already-completed sources of the connections
targeting that handle, in connection-processing order (a handle no completed
source feeds is absent); with zero incoming connections the prepared input
is the Run's parsed input document itself, not wrapped under any handle. -/
theorem claim_C4 (connections : List Connection) (node : Node)
    (ctxInput : JObj) (results : List (Nat × Json)) :
    ((connections.filter fun c => c.targetNodeId == node.id) = [] →
      Engine.prepareNodeInput connections node ctxInput results = ctxInput) ∧
    ((connections.filter fun c => c.targetNodeId == node.id) ≠ [] →
      ∀ handle : String,
        (Engine.prepareNodeInput connections node ctxInput results).lookup handle
          = if gatherOutputs results
                ((connections.filter fun c => c.targetNodeId == node.id).filter
                  fun c => c.targetHandle == handle) = [] then
              none
            else
              some (.arr (JArr.ofList (gatherOutputs results
                ((connections.filter fun c => c.targetNodeId == node.id).filter
                  fun c => c.targetHandle == handle))))) := by
  constructor
  · intro hempty
    simp [Engine.prepareNodeInput, hempty]
  · intro hne handle
    have hool : ((connections.filter fun c => c.targetNodeId == node.id).isEmpty) = false := by
      simpa [List.isEmpty_iff] using hne
    rw [Engine.prepareNodeInput]
    simp only [hool, Bool.false_eq_true, if_false]
    rw [prepareInputsLoop_lookup]
    simp only [JObj.lookup, Engine.entryArr, JArr.toList, List.nil_append]

/-- Witness for C4: two connections into the same handle of node 3 yield the
two source outputs as a two-element list in connection order, and a node
with no incoming connection receives the Run input document directly. -/
theorem claim_C4_witness :
    ((triWf.connections.filter fun c => c.targetNodeId == 3) ≠ [] ∧
      (Engine.prepareNodeInput triWf.connections ⟨3, "noop", .obj .nil⟩
          (.cons "greeting" (.str "hi") .nil)
          [(1, .str "out1"), (2, .str "out2")]).lookup "input"
        = some (.arr (.cons (.str "out1") (.cons (.str "out2") .nil)))) ∧
    ((triWf.connections.filter fun c => c.targetNodeId == 9) = [] ∧
      Engine.prepareNodeInput triWf.connections ⟨9, "noop", .obj .nil⟩
          (.cons "greeting" (.str "hi") .nil)
          [(1, .str "out1"), (2, .str "out2")]
        = .cons "greeting" (.str "hi") .nil) := by
  constructor
  · refine ⟨by decide, ?_⟩
    have h := (claim_C4 triWf.connections ⟨3, "noop", .obj .nil⟩
        (.cons "greeting" (.str "hi") .nil)
        [(1, .str "out1"), (2, .str "out2")]).2 (by decide) "input"
    rw [h]
    decide
  · exact ⟨by decide,
      (claim_C4 triWf.connections ⟨9, "noop", .obj .nil⟩
        (.cons "greeting" (.str "hi") .nil)
        [(1, .str "out1"), (2, .str "out2")]).1 (by decide)⟩

/-- A completed step-run row for node `nodeId` of Run `eid` exists. -/
def completedIn (st : EngineState) (eid nodeId : Nat) : Prop :=
  ∃ ne ∈ st.stepRuns,
    ne.workflowExecutionId = eid ∧ ne.nodeId = nodeId ∧ ne.status = "completed"

/-- `Engine.allInputsReady` decides exactly the readiness predicate of the
spec: every connection into the node has a completed source step-run in the
current Run. -/
theorem allInputsReady_eq_true_iff (conns : List Connection) (t eid : Nat)
    (st : EngineState) :
    Engine.allInputsReady conns t eid st.stepRuns = true ↔
      ∀ c ∈ conns, c.targetNodeId = t → completedIn st eid c.sourceNodeId := by
  simp only [Engine.allInputsReady, List.all_eq_true, List.mem_filter,
    List.any_eq_true, Bool.and_eq_true, beq_iff_eq, completedIn, and_imp,
    and_assoc]

/-- A node with no incoming connection is always ready. -/
theorem allInputsReady_of_no_incoming (conns : List Connection) (t eid : Nat)
    (l : List NodeExecution) (h : ∀ c ∈ conns, c.targetNodeId ≠ t) :
    Engine.allInputsReady conns t eid l = true := by
  have hnil : conns.filter (fun c => c.targetNodeId == t) = [] := by
    rw [List.filter_eq_nil_iff]
    intro c hc
    simp [h c hc]
  rw [Engine.allInputsReady, hnil]
  rfl

/-- Updating the freshly created last row leaves the old rows in place. -/
theorem listModify_append_last (f : NodeExecution → NodeExecution)
    (l : List NodeExecution) (x : NodeExecution) :
    listModify f l.length (l ++ [x]) = l ++ [f x] := by
  induction l with
  | nil => rfl
  | cons y ys ih => simp [listModify, ih]

/-- A member of `startNodes` is a workflow node with no incoming connection. -/
theorem startNodes_no_incoming (wf : Workflow) (n : Node)
    (h : n ∈ Engine.startNodes wf) :
    n ∈ wf.nodes ∧ ∀ c ∈ wf.connections, c.targetNodeId ≠ n.id := by
  rw [Engine.startNodes, List.mem_filter] at h
  refine ⟨h.1, ?_⟩
  intro c hc
  have h2 := h.2
  simp only [Bool.not_eq_true', List.any_eq_false] at h2
  simpa using h2 c hc

/-- How `Engine.runNodeBody` changes the step-run table: either it fails
before creating the row (missing node or node type) and leaves the table
alone, or it appends exactly one row for this node and Run — a row that is
`completed` whenever no error is returned — and the node exists in the
workflow. -/
theorem runNodeBody_stepRuns (env : Env) (wf : Workflow) (ci : JObj)
    (n eid : Nat) (st : EngineState) :
    ((Engine.runNodeBody env wf ci n eid st).1.stepRuns = st.stepRuns ∧
     (Engine.runNodeBody env wf ci n eid st).2 ≠ none) ∨
    (∃ row : NodeExecution,
      (Engine.runNodeBody env wf ci n eid st).1.stepRuns = st.stepRuns ++ [row] ∧
      row.workflowExecutionId = eid ∧ row.nodeId = n ∧
      (∃ node ∈ wf.nodes, node.id = n) ∧
      ((Engine.runNodeBody env wf ci n eid st).2 = none → row.status = "completed")) := by
  rcases hfind : wf.nodes.find? (fun m => m.id == n) with _ | node
  · left
    simp [Engine.runNodeBody, hfind]
  · have hmem : node ∈ wf.nodes := List.mem_of_find?_eq_some hfind
    have hid : node.id = n := by simpa using List.find?_some hfind
    rcases hnt : env.nodeTypes.find? (fun t => t.key == node.nodeType) with _ | nt
    · left
      simp [Engine.runNodeBody, hfind, hnt]
    · rcases hload : env.loadExecutor nt.executorClass with e | exec
      · right
        refine ⟨⟨eid, n, "failed",
            .obj (Engine.prepareNodeInput wf.connections node ci st.results), .null,
            "failed to load executor: " ++ e⟩, ?_, rfl, rfl, ⟨node, hmem, hid⟩, ?_⟩
        · simp only [Engine.runNodeBody, hfind, hnt, hload, updateStepRun,
            listModify_append_last]
        · simp only [Engine.runNodeBody, hfind, hnt, hload]
          simp
      · rcases hcfg : node.config with _ | b | m | s | elems | config
        case obj =>
          rcases hex : exec config (Engine.prepareNodeInput wf.connections node ci
              st.results) with e | result
          · right
            refine ⟨⟨eid, n, "failed",
                .obj (Engine.prepareNodeInput wf.connections node ci st.results), .null,
                "execution failed: " ++ e⟩, ?_, rfl, rfl, ⟨node, hmem, hid⟩, ?_⟩
            · simp only [Engine.runNodeBody, hfind, hnt, hload, hcfg, hex,
                updateStepRun, listModify_append_last]
            · simp only [Engine.runNodeBody, hfind, hnt, hload, hcfg, hex]
              simp
          · right
            refine ⟨⟨eid, n, "completed",
                .obj (Engine.prepareNodeInput wf.connections node ci st.results), result,
                ""⟩, ?_, rfl, rfl, ⟨node, hmem, hid⟩, fun _ => rfl⟩
            simp only [Engine.runNodeBody, hfind, hnt, hload, hcfg, hex,
              updateStepRun, listModify_append_last]
        all_goals
          right
          refine ⟨⟨eid, n, "failed",
              .obj (Engine.prepareNodeInput wf.connections node ci st.results), .null,
              "failed to parse node config: json: cannot unmarshal"⟩,
            ?_, rfl, rfl, ⟨node, hmem, hid⟩, ?_⟩
          · simp only [Engine.runNodeBody, hfind, hnt, hload, hcfg, updateStepRun,
              listModify_append_last]
          · simp only [Engine.runNodeBody, hfind, hnt, hload, hcfg]
            simp

theorem flow_get_lt {α : Type} : ∀ (l : List α) (i : Nat) (a : α),
    l[i]? = some a → i < l.length
  | [], i, a, h => by simp at h
  | x :: l, 0, a, h => by simp
  | x :: l, i + 1, a, h => by
      exact Nat.succ_lt_succ (flow_get_lt l i a (by simpa using h))

theorem flow_mem_get {α : Type} : ∀ (l : List α) (a : α), a ∈ l →
    ∃ i, i < l.length ∧ l[i]? = some a
  | [], a, h => absurd h (by simp)
  | x :: l, a, h => by
      rcases List.mem_cons.1 h with h | h
      · exact ⟨0, by simp, by simp [h]⟩
      · obtain ⟨i, hi, hg⟩ := flow_mem_get l a h
        exact ⟨i + 1, by simpa using Nat.succ_lt_succ hi, by simpa using hg⟩

theorem get?_append_lt {α : Type} : ∀ (l1 l2 : List α) (i : Nat), i < l1.length →
    (l1 ++ l2)[i]? = l1[i]?
  | [], _, i, h => absurd h (by simp)
  | a :: l1, l2, 0, _ => by simp
  | a :: l1, l2, i + 1, h => by
      simpa using get?_append_lt l1 l2 i (by simpa using h)

theorem get?_append_len {α : Type} : ∀ (l : List α) (x : α),
    (l ++ [x])[l.length]? = some x
  | [], x => rfl
  | a :: l, x => by simpa using get?_append_len l x

/-- The C3 trace invariant on a step-run table: every row of the Run whose
node has incoming connections is preceded (at smaller creation index) by a
completed row of the same Run for each incoming connection's source. -/
def sourcesBefore (wf : Workflow) (eid : Nat) (l : List NodeExecution) : Prop :=
  ∀ (i : Nat) (ne : NodeExecution), l[i]? = some ne → ne.workflowExecutionId = eid →
    ∀ c ∈ wf.connections, c.targetNodeId = ne.nodeId →
      ∃ (j : Nat) (ne' : NodeExecution), j < i ∧ l[j]? = some ne' ∧
        ne'.workflowExecutionId = eid ∧
        ne'.nodeId = c.sourceNodeId ∧ ne'.status = "completed"

/-- `runNodeBody` preserves the C3 invariant when invoked on a ready node:
the one row it may append is justified by the completed sources the
readiness check just found. -/
theorem runNodeBody_sourcesBefore (env : Env) (wf : Workflow) (ci : JObj)
    (n eid : Nat) (st : EngineState)
    (hready : Engine.allInputsReady wf.connections n eid st.stepRuns = true)
    (hsb : sourcesBefore wf eid st.stepRuns) :
    sourcesBefore wf eid (Engine.runNodeBody env wf ci n eid st).1.stepRuns := by
  rcases runNodeBody_stepRuns env wf ci n eid st with ⟨heq, _⟩ |
    ⟨row, heq, hrweid, hrwnid, _, _⟩
  · rw [heq]; exact hsb
  · rw [heq]
    unfold sourcesBefore
    intro i ne hi heid c hc hct
    by_cases hilt : i < st.stepRuns.length
    · have hi' : st.stepRuns[i]? = some ne := by
        rw [← get?_append_lt st.stepRuns [row] i hilt]; exact hi
      obtain ⟨j, ne', hj, hg, h1, h2, h3⟩ := hsb i ne hi' heid c hc hct
      exact ⟨j, ne', hj,
        by rw [get?_append_lt st.stepRuns [row] j (lt_trans hj hilt)]; exact hg,
        h1, h2, h3⟩
    · have hlen : i < st.stepRuns.length + 1 := by
        have := flow_get_lt _ i ne hi
        simpa using this
      have hieq : i = st.stepRuns.length := by omega
      have hner : ne = row := by
        rw [hieq, get?_append_len] at hi
        exact (Option.some.inj hi).symm
      have hct' : c.targetNodeId = n := by rw [hct, hner, hrwnid]
      have hcomp := (allInputsReady_eq_true_iff wf.connections n eid st).1 hready c hc hct'
      obtain ⟨ne', hmem, h1, h2, h3⟩ := hcomp
      obtain ⟨j, hjlt, hjg⟩ := flow_mem_get st.stepRuns ne' hmem
      exact ⟨j, ne', by omega,
        by rw [get?_append_lt st.stepRuns [row] j hjlt]; exact hjg, h1, h2, h3⟩

/-- The successor loop preserves the C3 invariant, for any recursive call
`go` that does (the loop only invokes `go` on ready targets). -/
theorem runSuccessors_sourcesBefore_of (env : Env) (wf : Workflow) (ci : JObj)
    (go : Nat → Nat → EngineState → EngineState × Option String)
    (hex : ∀ n eid st, Engine.allInputsReady wf.connections n eid st.stepRuns = true →
      sourcesBefore wf eid st.stepRuns →
      sourcesBefore wf eid (go n eid st).1.stepRuns) :
    ∀ (cs : List Connection) (eid : Nat) (st : EngineState),
      sourcesBefore wf eid st.stepRuns →
      sourcesBefore wf eid (Engine.runSuccessors env wf ci go cs eid st).1.stepRuns
  | [], eid, st, hsb => by simpa only [Engine.runSuccessors] using hsb
  | c :: cs, eid, st, hsb => by
      rw [Engine.runSuccessors]
      by_cases hr : Engine.allInputsReady wf.connections c.targetNodeId eid st.stepRuns = true
      · rw [if_pos hr]
        rcases hx : go c.targetNodeId eid st with ⟨st', e⟩
        have hsb' := hex c.targetNodeId eid st hr hsb
        rw [hx] at hsb'
        cases e with
        | none => exact runSuccessors_sourcesBefore_of env wf ci go hex cs eid st' hsb'
        | some err => exact hsb'
      · rw [if_neg hr]
        exact runSuccessors_sourcesBefore_of env wf ci go hex cs eid st hsb

/-- `executeNode` preserves the C3 invariant when invoked on a ready node. -/
theorem executeNode_sourcesBefore (env : Env) (wf : Workflow) (ci : JObj) :
    ∀ (fuel n eid : Nat) (st : EngineState),
      Engine.allInputsReady wf.connections n eid st.stepRuns = true →
      sourcesBefore wf eid st.stepRuns →
      sourcesBefore wf eid (Engine.executeNode env wf ci fuel n eid st).1.stepRuns
  | 0, n, eid, st, _, hsb => by simpa only [Engine.executeNode] using hsb
  | fuel + 1, n, eid, st, hready, hsb => by
      rw [Engine.executeNode]
      have hsb' := runNodeBody_sourcesBefore env wf ci n eid st hready hsb
      rcases hb : Engine.runNodeBody env wf ci n eid st with ⟨st', e⟩
      rw [hb] at hsb'
      cases e with
      | none =>
          exact runSuccessors_sourcesBefore_of env wf ci
            (fun n' eid' s => Engine.executeNode env wf ci fuel n' eid' s)
            (fun n' eid' st'' => executeNode_sourcesBefore env wf ci fuel n' eid' st'')
            _ eid st' hsb'
      | some err => exact hsb'

/-- The start-node loop preserves the C3 invariant (start nodes have no
incoming connection, so they are trivially ready). -/
theorem runStartNodes_sourcesBefore (env : Env) (wf : Workflow) (ci : JObj)
    (fuel : Nat) :
    ∀ (ns : List Node) (eid : Nat) (st : EngineState),
      (∀ n ∈ ns, ∀ c ∈ wf.connections, c.targetNodeId ≠ n.id) →
      sourcesBefore wf eid st.stepRuns →
      sourcesBefore wf eid (Engine.runStartNodes env wf ci fuel ns eid st).1.stepRuns
  | [], eid, st, _, hsb => by simpa only [Engine.runStartNodes] using hsb
  | nd :: ns, eid, st, hno, hsb => by
      rw [Engine.runStartNodes]
      have hready := allInputsReady_of_no_incoming wf.connections nd.id eid st.stepRuns
        (fun c hc => hno nd (by simp) c hc)
      have hsb' := executeNode_sourcesBefore env wf ci fuel nd.id eid st hready hsb
      rcases hx : Engine.executeNode env wf ci fuel nd.id eid st with ⟨st', e⟩
      rw [hx] at hsb'
      cases e with
      | none =>
          exact runStartNodes_sourcesBefore env wf ci fuel ns eid st'
            (fun n hn => hno n (List.mem_cons_of_mem _ hn)) hsb'
      | some err => exact hsb'

/-- The whole traversal preserves the C3 invariant. -/
theorem executeWorkflowInternal_sourcesBefore (env : Env) (wf : Workflow)
    (fuel : Nat) (execution : WorkflowExecution) (st : EngineState)
    (hsb : sourcesBefore wf execution.id st.stepRuns) :
    sourcesBefore wf execution.id
      (Engine.executeWorkflowInternal env wf fuel execution st).2.1.stepRuns := by
  have hno : ∀ n ∈ Engine.startNodes wf, ∀ c ∈ wf.connections, c.targetNodeId ≠ n.id :=
    fun n hn => (startNodes_no_incoming wf n hn).2
  rw [Engine.executeWorkflowInternal]
  by_cases hempty : (Engine.startNodes wf).isEmpty = true
  · rw [if_pos hempty]
    exact hsb
  · rw [if_neg hempty]
    rcases hinp : execution.inputData with _ | b | m | sv | elems | o
    · have h2 := runStartNodes_sourcesBefore env wf .nil fuel
        (Engine.startNodes wf) execution.id st hno hsb
      rcases hrs : Engine.runStartNodes env wf .nil fuel (Engine.startNodes wf)
        execution.id st with ⟨st', e⟩
      rw [hrs] at h2
      dsimp only
      rw [hrs]
      cases e <;> exact h2
    · exact hsb
    · exact hsb
    · exact hsb
    · exact hsb
    · have h2 := runStartNodes_sourcesBefore env wf o fuel
        (Engine.startNodes wf) execution.id st hno hsb
      rcases hrs : Engine.runStartNodes env wf o fuel (Engine.startNodes wf)
        execution.id st with ⟨st', e⟩
      rw [hrs] at h2
      dsimp only
      rw [hrs]
      cases e <;> exact h2

/-- The `ExecuteWorkflow` wrapper leaves the traversal's step-run state as
is. -/
theorem ExecuteWorkflow_state_eq (env : Env) (wf : Workflow) (fuel : Nat)
    (ex : WorkflowExecution) (st : EngineState) :
    (Engine.ExecuteWorkflow env wf fuel ex st).2 =
      (Engine.executeWorkflowInternal env wf fuel { ex with status := "running" } st).2.1 := by
  rw [Engine.ExecuteWorkflow]
  rcases h : Engine.executeWorkflowInternal env wf fuel { ex with status := "running" } st
    with ⟨ex2, st2, e2⟩
  cases e2 <;> simp

/-- C3: in every execution trace of a Run (started on an empty step-run
table), a node with two incoming connections from two distinct source nodes
is never executed before both sources have a completed step-run in the
current Run — every step-run row of such a node is preceded, at smaller
creation index, by a completed row of the same Run for each of the two
sources. -/
theorem claim_C3 (env : Env) (wf : Workflow) (fuel : Nat)
    (execution : WorkflowExecution) (t : Nat) (c1 c2 : Connection)
    (hc1 : c1 ∈ wf.connections) (hc2 : c2 ∈ wf.connections)
    (ht1 : c1.targetNodeId = t) (ht2 : c2.targetNodeId = t)
    (hsrc : c1.sourceNodeId ≠ c2.sourceNodeId)
    (i : Nat) (ne : NodeExecution)
    (hi : (Engine.ExecuteWorkflow env wf fuel execution ⟨[], []⟩).2.stepRuns[i]? = some ne)
    (hnid : ne.nodeId = t) (heid : ne.workflowExecutionId = execution.id) :
    (∃ (j : Nat) (ne' : NodeExecution), j < i ∧
      (Engine.ExecuteWorkflow env wf fuel execution ⟨[], []⟩).2.stepRuns[j]? = some ne' ∧
      ne'.workflowExecutionId = execution.id ∧ ne'.nodeId = c1.sourceNodeId ∧
      ne'.status = "completed") ∧
    (∃ (j : Nat) (ne' : NodeExecution), j < i ∧
      (Engine.ExecuteWorkflow env wf fuel execution ⟨[], []⟩).2.stepRuns[j]? = some ne' ∧
      ne'.workflowExecutionId = execution.id ∧ ne'.nodeId = c2.sourceNodeId ∧
      ne'.status = "completed") := by
  have hsb0 : sourcesBefore wf
      ({ execution with status := "running" } : WorkflowExecution).id
      (⟨[], []⟩ : EngineState).stepRuns := by
    unfold sourcesBefore
    intro i ne h
    simp at h
  have hsb := executeWorkflowInternal_sourcesBefore env wf fuel
    { execution with status := "running" } ⟨[], []⟩ hsb0
  have hrw := ExecuteWorkflow_state_eq env wf fuel execution ⟨[], []⟩
  rw [hrw] at hi
  have hid : ({ execution with status := "running" } : WorkflowExecution).id
      = execution.id := rfl
  rw [hid] at hsb
  constructor
  · obtain ⟨j, ne', hj, hg, h1, h2, h3⟩ := hsb i ne hi heid c1 hc1 (ht1.trans hnid.symm)
    exact ⟨j, ne', hj, by rw [hrw]; exact hg, h1, h2, h3⟩
  · obtain ⟨j, ne', hj, hg, h1, h2, h3⟩ := hsb i ne hi heid c2 hc2 (ht2.trans hnid.symm)
    exact ⟨j, ne', hj, by rw [hrw]; exact hg, h1, h2, h3⟩

/-- Witness for C3 on the concrete diamond 1→2, 1→3, 2→4, 3→4: node 4's row
is created at index 3, after completed rows for both sources 2 and 3. -/
theorem claim_C3_witness :
    (Engine.ExecuteWorkflow noopEnv diaWf 10 run0 ⟨[], []⟩).2.stepRuns[3]?
      = some ⟨7, 4, "completed",
          .obj (.cons "input" (.arr (.cons .null (.cons .null .nil))) .nil), .null, ""⟩ ∧
    (∃ (j : Nat) (ne' : NodeExecution), j < 3 ∧
      (Engine.ExecuteWorkflow noopEnv diaWf 10 run0 ⟨[], []⟩).2.stepRuns[j]? = some ne' ∧
      ne'.workflowExecutionId = 7 ∧ ne'.nodeId = 2 ∧ ne'.status = "completed") ∧
    (∃ (j : Nat) (ne' : NodeExecution), j < 3 ∧
      (Engine.ExecuteWorkflow noopEnv diaWf 10 run0 ⟨[], []⟩).2.stepRuns[j]? = some ne' ∧
      ne'.workflowExecutionId = 7 ∧ ne'.nodeId = 3 ∧ ne'.status = "completed") := by
  refine ⟨by rfl, ?_⟩
  exact claim_C3 noopEnv diaWf 10 run0 4
    ⟨3, 2, 4, "output", "input"⟩ ⟨4, 3, 4, "output", "input"⟩
    (by decide) (by decide) rfl rfl (by decide) 3
    ⟨7, 4, "completed",
      .obj (.cons "input" (.arr (.cons .null (.cons .null .nil))) .nil), .null, ""⟩
    (by rfl) rfl rfl

theorem flow_get_mem {α : Type} : ∀ (l : List α) (i : Nat) (a : α),
    l[i]? = some a → a ∈ l
  | [], i, a, h => by simp at h
  | x :: l, 0, a, h => by
      simp only [List.getElem?_cons_zero, Option.some.injEq] at h
      simp [h]
  | x :: l, i + 1, a, h =>
      List.mem_cons_of_mem x (flow_get_mem l i a (by simpa using h))

/-- Rows already present are never modified by later engine steps; new rows
are only appended (GORM `Create` appends, each `Save` touches only the row
its own `executeNode` invocation created). -/
def rowsPreserved (st st' : EngineState) : Prop :=
  st.stepRuns.length ≤ st'.stepRuns.length ∧
  ∀ i : Nat, i < st.stepRuns.length → st'.stepRuns[i]? = st.stepRuns[i]?

theorem rowsPreserved_refl (st : EngineState) : rowsPreserved st st :=
  ⟨le_refl _, fun _ _ => rfl⟩

theorem rowsPreserved_trans {a b c : EngineState}
    (h1 : rowsPreserved a b) (h2 : rowsPreserved b c) : rowsPreserved a c :=
  ⟨le_trans h1.1 h2.1,
   fun i hi => (h2.2 i (lt_of_lt_of_le hi h1.1)).trans (h1.2 i hi)⟩

/-- A completed row stays a completed row. -/
theorem completedIn_mono {st st' : EngineState} {eid n : Nat}
    (h : rowsPreserved st st') (hc : completedIn st eid n) :
    completedIn st' eid n := by
  obtain ⟨ne, hmem, hp⟩ := hc
  obtain ⟨i, hi, hg⟩ := flow_mem_get _ _ hmem
  have hg' : st'.stepRuns[i]? = some ne := by rw [h.2 i hi]; exact hg
  exact ⟨ne, flow_get_mem _ i ne hg', hp⟩

theorem runNodeBody_rowsPreserved (env : Env) (wf : Workflow) (ci : JObj)
    (n eid : Nat) (st : EngineState) :
    rowsPreserved st (Engine.runNodeBody env wf ci n eid st).1 := by
  rcases runNodeBody_stepRuns env wf ci n eid st with ⟨heq, _⟩ | ⟨row, heq, _⟩
  · exact ⟨by rw [heq], fun i _ => by rw [heq]⟩
  · exact ⟨by simp [heq], fun i hi => by rw [heq, get?_append_lt _ _ i hi]⟩

theorem runSuccessors_rowsPreserved_of (env : Env) (wf : Workflow) (ci : JObj)
    (go : Nat → Nat → EngineState → EngineState × Option String)
    (hgo : ∀ n eid st, rowsPreserved st (go n eid st).1) :
    ∀ (cs : List Connection) (eid : Nat) (st : EngineState),
      rowsPreserved st (Engine.runSuccessors env wf ci go cs eid st).1
  | [], eid, st => by
      rw [Engine.runSuccessors]
      exact rowsPreserved_refl st
  | c :: cs, eid, st => by
      rw [Engine.runSuccessors]
      by_cases hr : Engine.allInputsReady wf.connections c.targetNodeId eid st.stepRuns = true
      · rw [if_pos hr]
        rcases hx : go c.targetNodeId eid st with ⟨st1, e⟩
        have h1 := hgo c.targetNodeId eid st
        rw [hx] at h1
        cases e with
        | none =>
            exact rowsPreserved_trans h1
              (runSuccessors_rowsPreserved_of env wf ci go hgo cs eid st1)
        | some err => exact h1
      · rw [if_neg hr]
        exact runSuccessors_rowsPreserved_of env wf ci go hgo cs eid st

theorem executeNode_rowsPreserved (env : Env) (wf : Workflow) (ci : JObj) :
    ∀ (fuel n eid : Nat) (st : EngineState),
      rowsPreserved st (Engine.executeNode env wf ci fuel n eid st).1
  | 0, n, eid, st => by
      rw [Engine.executeNode]
      exact rowsPreserved_refl st
  | fuel + 1, n, eid, st => by
      rw [Engine.executeNode]
      have h1 := runNodeBody_rowsPreserved env wf ci n eid st
      rcases hb : Engine.runNodeBody env wf ci n eid st with ⟨stb, e⟩
      rw [hb] at h1
      cases e with
      | none =>
          exact rowsPreserved_trans h1
            (runSuccessors_rowsPreserved_of env wf ci
              (fun n' eid' s => Engine.executeNode env wf ci fuel n' eid' s)
              (fun n' eid' s => executeNode_rowsPreserved env wf ci fuel n' eid' s)
              _ eid stb)
      | some err => exact h1

theorem runStartNodes_rowsPreserved (env : Env) (wf : Workflow) (ci : JObj)
    (fuel : Nat) :
    ∀ (ns : List Node) (eid : Nat) (st : EngineState),
      rowsPreserved st (Engine.runStartNodes env wf ci fuel ns eid st).1
  | [], eid, st => by
      rw [Engine.runStartNodes]
      exact rowsPreserved_refl st
  | nd :: ns, eid, st => by
      rw [Engine.runStartNodes]
      have h1 := executeNode_rowsPreserved env wf ci fuel nd.id eid st
      rcases hx : Engine.executeNode env wf ci fuel nd.id eid st with ⟨st1, e⟩
      rw [hx] at h1
      cases e with
      | none =>
          exact rowsPreserved_trans h1
            (runStartNodes_rowsPreserved env wf ci fuel ns eid st1)
      | some err => exact h1

/-- A successful `runNodeBody` leaves a completed row for its node. -/
theorem runNodeBody_completed (env : Env) (wf : Workflow) (ci : JObj)
    (n eid : Nat) (st : EngineState)
    (hsucc : (Engine.runNodeBody env wf ci n eid st).2 = none) :
    completedIn (Engine.runNodeBody env wf ci n eid st).1 eid n := by
  rcases runNodeBody_stepRuns env wf ci n eid st with ⟨_, hne⟩ |
    ⟨row, heq, hrweid, hrwnid, _, hcomp⟩
  · exact absurd hsucc hne
  · refine ⟨row, ?_, hrweid, hrwnid, hcomp hsucc⟩
    rw [heq]
    simp

/-- Conversely, a node completed after `runNodeBody` was either already
completed or is the node the body just ran. -/
theorem runNodeBody_completed_inv (env : Env) (wf : Workflow) (ci : JObj)
    (n eid x : Nat) (st : EngineState)
    (hc : completedIn (Engine.runNodeBody env wf ci n eid st).1 eid x) :
    completedIn st eid x ∨ x = n := by
  rcases runNodeBody_stepRuns env wf ci n eid st with ⟨heq, _⟩ |
    ⟨row, heq, hrweid, hrwnid, _, _⟩
  · left
    obtain ⟨ne, hmem, hp⟩ := hc
    rw [heq] at hmem
    exact ⟨ne, hmem, hp⟩
  · obtain ⟨ne, hmem, hp⟩ := hc
    rw [heq] at hmem
    rcases List.mem_append.1 hmem with hm | hm
    · exact Or.inl ⟨ne, hm, hp⟩
    · right
      have : ne = row := by simpa using hm
      rw [← hrwnid, ← this]
      exact hp.2.1.symm

/-- The readiness predicate: every connection into `t` has a completed
source in the current Run. -/
def readyProp (wf : Workflow) (eid : Nat) (st : EngineState) (t : Nat) : Prop :=
  ∀ c ∈ wf.connections, c.targetNodeId = t → completedIn st eid c.sourceNodeId

/-- The key progress property of the successor loop: at its end, every node
that is fully ready is either completed, or was already fully ready but
uncompleted before the loop ran and is not the target of any connection the
loop was asked to process. -/
theorem runSuccessors_progress_of (env : Env) (wf : Workflow) (ci : JObj)
    (go : Nat → Nat → EngineState → EngineState × Option String)
    (hgo_pres : ∀ n eid st, rowsPreserved st (go n eid st).1)
    (hgo : ∀ n eid st st', go n eid st = (st', none) →
      completedIn st' eid n ∧
      (∀ t, readyProp wf eid st' t → completedIn st' eid t ∨
        (readyProp wf eid st t ∧ ¬ completedIn st eid t))) :
    ∀ (cs : List Connection) (eid : Nat) (st st' : EngineState),
      Engine.runSuccessors env wf ci go cs eid st = (st', none) →
      ∀ t, readyProp wf eid st' t → completedIn st' eid t ∨
        (readyProp wf eid st t ∧ ¬ completedIn st eid t ∧
          ∀ c ∈ cs, c.targetNodeId ≠ t)
  | [], eid, st, st', heq => by
      rw [Engine.runSuccessors] at heq
      have hst : st = st' := congrArg Prod.fst heq
      subst hst
      intro t hrt
      by_cases hc : completedIn st eid t
      · exact Or.inl hc
      · exact Or.inr ⟨hrt, hc, by simp⟩
  | c :: cs, eid, st, st', heq => by
      rw [Engine.runSuccessors] at heq
      by_cases hr : Engine.allInputsReady wf.connections c.targetNodeId eid st.stepRuns = true
      · rw [if_pos hr] at heq
        rcases hx : go c.targetNodeId eid st with ⟨st1, e⟩
        rw [hx] at heq
        cases e with
        | some err => simp at heq
        | none =>
            have h1 := hgo c.targetNodeId eid st st1 hx
            intro t hrt
            rcases runSuccessors_progress_of env wf ci go hgo_pres hgo cs eid st1 st'
                heq t hrt with hdone | ⟨hrst1, hnc1, hnotin⟩
            · exact Or.inl hdone
            · rcases h1.2 t hrst1 with hdone1 | ⟨hrst, hnc⟩
              · exact absurd hdone1 hnc1
              · refine Or.inr ⟨hrst, hnc, ?_⟩
                intro c' hc'
                rcases List.mem_cons.1 hc' with hcc | hm
                · intro hct
                  apply hnc1
                  rw [← hct, hcc]
                  exact h1.1
                · exact hnotin c' hm
      · rw [if_neg hr] at heq
        intro t hrt
        rcases runSuccessors_progress_of env wf ci go hgo_pres hgo cs eid st st'
            heq t hrt with hdone | ⟨hrst, hnc, hnotin⟩
        · exact Or.inl hdone
        · refine Or.inr ⟨hrst, hnc, ?_⟩
          intro c' hc'
          rcases List.mem_cons.1 hc' with hcc | hm
          · intro hct
            apply hr
            have hct2 : c.targetNodeId = t := hcc ▸ hct
            rw [hct2]
            exact (allInputsReady_eq_true_iff wf.connections t eid st).2
              (fun c0 hc0 hct0 => hrst c0 hc0 hct0)
          · exact hnotin c' hm

/-- The progress property of `executeNode`: on success the node is
completed, and no node becomes ready without being executed during the call
(any fully ready node at exit was either completed or already ready and
uncompleted at entry). -/
theorem executeNode_progress (env : Env) (wf : Workflow) (ci : JObj) :
    ∀ (fuel n eid : Nat) (st st' : EngineState),
      Engine.executeNode env wf ci fuel n eid st = (st', none) →
      completedIn st' eid n ∧
      (∀ t, readyProp wf eid st' t → completedIn st' eid t ∨
        (readyProp wf eid st t ∧ ¬ completedIn st eid t))
  | 0, n, eid, st, st', heq => by
      rw [Engine.executeNode] at heq
      simp at heq
  | fuel + 1, n, eid, st, st', heq => by
      rw [Engine.executeNode] at heq
      rcases hb : Engine.runNodeBody env wf ci n eid st with ⟨stb, e⟩
      rw [hb] at heq
      cases e with
      | some err => simp at heq
      | none =>
          dsimp only at heq
          have hbsucc : (Engine.runNodeBody env wf ci n eid st).2 = none := by
            rw [hb]
          have hcompb := runNodeBody_completed env wf ci n eid st hbsucc
          rw [hb] at hcompb
          have hpresb := runNodeBody_rowsPreserved env wf ci n eid st
          rw [hb] at hpresb
          have hpres1 : rowsPreserved stb st' := by
            have h := runSuccessors_rowsPreserved_of env wf ci
              (fun n' eid' s => Engine.executeNode env wf ci fuel n' eid' s)
              (fun n' eid' s => executeNode_rowsPreserved env wf ci fuel n' eid' s)
              (wf.connections.filter fun c => c.sourceNodeId == n) eid stb
            rw [heq] at h
            exact h
          refine ⟨completedIn_mono hpres1 hcompb, ?_⟩
          intro t hrt
          rcases runSuccessors_progress_of env wf ci
              (fun n' eid' s => Engine.executeNode env wf ci fuel n' eid' s)
              (fun n' eid' s => executeNode_rowsPreserved env wf ci fuel n' eid' s)
              (fun n' eid' s s' h => executeNode_progress env wf ci fuel n' eid' s s' h)
              (wf.connections.filter fun c => c.sourceNodeId == n) eid stb st'
              heq t hrt with hdone | ⟨hr_stb, hnc_stb, hnotin⟩
          · exact Or.inl hdone
          · right
            constructor
            · intro c hc hct
              have hcs := hr_stb c hc hct
              have := runNodeBody_completed_inv env wf ci n eid c.sourceNodeId st
                (by rw [hb]; exact hcs)
              rcases this with hdone0 | hsn
              · exact hdone0
              · exfalso
                apply hnotin c
                · rw [List.mem_filter]
                  exact ⟨hc, by simp [hsn]⟩
                · exact hct
            · intro hcst
              exact hnc_stb (completedIn_mono hpresb hcst)

/-- The between-calls invariant: any node with at least one incoming
connection that is fully ready is already completed. -/
def engineInv (wf : Workflow) (eid : Nat) (st : EngineState) : Prop :=
  ∀ t, (∃ c ∈ wf.connections, c.targetNodeId = t) →
    readyProp wf eid st t → completedIn st eid t

/-- The start-node loop preserves the invariant and completes every node it
was given. -/
theorem runStartNodes_inv_completed (env : Env) (wf : Workflow) (ci : JObj)
    (fuel : Nat) :
    ∀ (ns : List Node) (eid : Nat) (st st' : EngineState),
      Engine.runStartNodes env wf ci fuel ns eid st = (st', none) →
      engineInv wf eid st →
      engineInv wf eid st' ∧ ∀ n ∈ ns, completedIn st' eid n.id
  | [], eid, st, st', heq, hinv => by
      rw [Engine.runStartNodes] at heq
      have hst : st = st' := congrArg Prod.fst heq
      subst hst
      exact ⟨hinv, by simp⟩
  | nd :: ns, eid, st, st', heq, hinv => by
      rw [Engine.runStartNodes] at heq
      rcases hx : Engine.executeNode env wf ci fuel nd.id eid st with ⟨st1, e⟩
      rw [hx] at heq
      cases e with
      | some err => simp at heq
      | none =>
          dsimp only at heq
          have hprog := executeNode_progress env wf ci fuel nd.id eid st st1 hx
          have hinv1 : engineInv wf eid st1 := by
            intro t hex hrt
            rcases hprog.2 t hrt with hdone | ⟨hrst, hnc⟩
            · exact hdone
            · exact absurd (hinv t hex hrst) hnc
          have hrec := runStartNodes_inv_completed env wf ci fuel ns eid st1 st' heq hinv1
          have hpres : rowsPreserved st1 st' := by
            have h := runStartNodes_rowsPreserved env wf ci fuel ns eid st1
            rw [heq] at h
            exact h
          refine ⟨hrec.1, ?_⟩
          intro n hn
          rcases List.mem_cons.1 hn with hnd | hm
          · rw [hnd]
            exact completedIn_mono hpres hprog.1
          · exact hrec.2 n hm

/-- The nodes reachable from some source node by following connections
forward (the spec's reachability notion for claim C1). -/
inductive Reachable (wf : Workflow) : Nat → Prop where
  | source (n : Node) : n ∈ wf.nodes →
      (∀ c ∈ wf.connections, c.targetNodeId ≠ n.id) → Reachable wf n.id
  | step (c : Connection) : c ∈ wf.connections →
      Reachable wf c.sourceNodeId → Reachable wf c.targetNodeId

/-- Every step-run row belongs to a reachable workflow node. -/
def rowsOk (wf : Workflow) (l : List NodeExecution) : Prop :=
  ∀ ne ∈ l, Reachable wf ne.nodeId ∧ ∃ m ∈ wf.nodes, m.id = ne.nodeId

theorem runNodeBody_rowsOk (env : Env) (wf : Workflow) (ci : JObj)
    (n eid : Nat) (st : EngineState) (hreach : Reachable wf n)
    (hok : rowsOk wf st.stepRuns) :
    rowsOk wf (Engine.runNodeBody env wf ci n eid st).1.stepRuns := by
  rcases runNodeBody_stepRuns env wf ci n eid st with ⟨heq, _⟩ |
    ⟨row, heq, _, hrwnid, hnode, _⟩
  · rw [heq]; exact hok
  · rw [heq]
    intro ne hmem
    rcases List.mem_append.1 hmem with hm | hm
    · exact hok ne hm
    · have hner : ne = row := by simpa using hm
      rw [hner, hrwnid]
      exact ⟨hreach, hnode⟩

theorem runSuccessors_rowsOk_of (env : Env) (wf : Workflow) (ci : JObj)
    (go : Nat → Nat → EngineState → EngineState × Option String)
    (hgo : ∀ n eid st, Reachable wf n → rowsOk wf st.stepRuns →
      rowsOk wf (go n eid st).1.stepRuns) :
    ∀ (cs : List Connection),
      (∀ c ∈ cs, c ∈ wf.connections ∧ Reachable wf c.sourceNodeId) →
      ∀ (eid : Nat) (st : EngineState), rowsOk wf st.stepRuns →
        rowsOk wf (Engine.runSuccessors env wf ci go cs eid st).1.stepRuns
  | [], _, eid, st, hok => by
      rw [Engine.runSuccessors]
      exact hok
  | c :: cs, hcs, eid, st, hok => by
      rw [Engine.runSuccessors]
      have hreach : Reachable wf c.targetNodeId :=
        Reachable.step c (hcs c (by simp)).1 (hcs c (by simp)).2
      by_cases hr : Engine.allInputsReady wf.connections c.targetNodeId eid st.stepRuns = true
      · rw [if_pos hr]
        rcases hx : go c.targetNodeId eid st with ⟨st1, e⟩
        have h1 := hgo c.targetNodeId eid st hreach hok
        rw [hx] at h1
        cases e with
        | none =>
            exact runSuccessors_rowsOk_of env wf ci go hgo cs
              (fun c' hc' => hcs c' (List.mem_cons_of_mem _ hc')) eid st1 h1
        | some err => exact h1
      · rw [if_neg hr]
        exact runSuccessors_rowsOk_of env wf ci go hgo cs
          (fun c' hc' => hcs c' (List.mem_cons_of_mem _ hc')) eid st hok

theorem executeNode_rowsOk (env : Env) (wf : Workflow) (ci : JObj) :
    ∀ (fuel n eid : Nat) (st : EngineState), Reachable wf n →
      rowsOk wf st.stepRuns →
      rowsOk wf (Engine.executeNode env wf ci fuel n eid st).1.stepRuns
  | 0, n, eid, st, _, hok => by
      rw [Engine.executeNode]
      exact hok
  | fuel + 1, n, eid, st, hreach, hok => by
      rw [Engine.executeNode]
      have h1 := runNodeBody_rowsOk env wf ci n eid st hreach hok
      rcases hb : Engine.runNodeBody env wf ci n eid st with ⟨stb, e⟩
      rw [hb] at h1
      cases e with
      | none =>
          refine runSuccessors_rowsOk_of env wf ci
            (fun n' eid' s => Engine.executeNode env wf ci fuel n' eid' s)
            (fun n' eid' s hr' hok' => executeNode_rowsOk env wf ci fuel n' eid' s hr' hok')
            _ ?_ eid stb h1
          intro c hc
          rw [List.mem_filter] at hc
          have hsid : c.sourceNodeId = n := by simpa using hc.2
          exact ⟨hc.1, by rw [hsid]; exact hreach⟩
      | some err => exact h1

theorem runStartNodes_rowsOk (env : Env) (wf : Workflow) (ci : JObj)
    (fuel : Nat) :
    ∀ (ns : List Node) (eid : Nat) (st : EngineState),
      (∀ n ∈ ns, Reachable wf n.id) → rowsOk wf st.stepRuns →
      rowsOk wf (Engine.runStartNodes env wf ci fuel ns eid st).1.stepRuns
  | [], eid, st, _, hok => by
      rw [Engine.runStartNodes]
      exact hok
  | nd :: ns, eid, st, hns, hok => by
      rw [Engine.runStartNodes]
      have h1 := executeNode_rowsOk env wf ci fuel nd.id eid st (hns nd (by simp)) hok
      rcases hx : Engine.executeNode env wf ci fuel nd.id eid st with ⟨st1, e⟩
      rw [hx] at h1
      cases e with
      | none =>
          exact runStartNodes_rowsOk env wf ci fuel ns eid st1
            (fun n hn => hns n (List.mem_cons_of_mem _ hn)) h1
      | some err => exact h1

/-- In an acyclic workflow whose connection sources all exist, every node is
reachable from some source node. -/
theorem all_nodes_reachable (wf : Workflow) (rank : Nat → Nat)
    (hrank : ∀ c ∈ wf.connections, rank c.sourceNodeId < rank c.targetNodeId)
    (hclosed : ∀ c ∈ wf.connections, ∃ m ∈ wf.nodes, m.id = c.sourceNodeId) :
    ∀ n ∈ wf.nodes, Reachable wf n.id := by
  have main : ∀ v (n : Node), n ∈ wf.nodes → rank n.id < v → Reachable wf n.id := by
    intro v
    induction v with
    | zero => intro n _ h; omega
    | succ v ih =>
        intro n hn hv
        by_cases hinc : ∀ c ∈ wf.connections, c.targetNodeId ≠ n.id
        · exact Reachable.source n hn hinc
        · push_neg at hinc
          obtain ⟨c, hc, hct⟩ := hinc
          obtain ⟨m, hm, hmid⟩ := hclosed c hc
          have hr : rank c.sourceNodeId < rank n.id := by
            have := hrank c hc
            rwa [hct] at this
          have hreach : Reachable wf c.sourceNodeId := by
            have := ih m hm (by rw [hmid]; omega)
            rwa [hmid] at this
          exact hct ▸ Reachable.step c hc hreach
  intro n hn
  exact main (rank n.id + 1) n hn (by omega)

/-- A Run that finished without error got past the start-node check and the
input parse, and its whole traversal is one successful start-node loop. -/
theorem internal_success_cases (env : Env) (wf : Workflow) (fuel : Nat)
    (execution : WorkflowExecution) (st : EngineState)
    (hsucc : (Engine.executeWorkflowInternal env wf fuel execution st).2.2 = none) :
    ∃ ci : JObj,
      Engine.runStartNodes env wf ci fuel (Engine.startNodes wf) execution.id st
        = ((Engine.executeWorkflowInternal env wf fuel execution st).2.1, none) := by
  rw [Engine.executeWorkflowInternal] at hsucc ⊢
  by_cases hempty : (Engine.startNodes wf).isEmpty = true
  · rw [if_pos hempty] at hsucc
    simp at hsucc
  · rw [if_neg hempty] at hsucc ⊢
    rcases hinp : execution.inputData with _ | b | m | sv | elems | o
    · refine ⟨.nil, ?_⟩
      rw [hinp] at hsucc
      dsimp only at hsucc ⊢
      rcases hrs : Engine.runStartNodes env wf .nil fuel (Engine.startNodes wf)
        execution.id st with ⟨st1, e⟩
      rw [hrs] at hsucc
      cases e with
      | none => rfl
      | some err => simp at hsucc
    · rw [hinp] at hsucc
      simp at hsucc
    · rw [hinp] at hsucc
      simp at hsucc
    · rw [hinp] at hsucc
      simp at hsucc
    · rw [hinp] at hsucc
      simp at hsucc
    · refine ⟨o, ?_⟩
      rw [hinp] at hsucc
      dsimp only at hsucc ⊢
      rcases hrs : Engine.runStartNodes env wf o fuel (Engine.startNodes wf)
        execution.id st with ⟨st1, e⟩
      rw [hrs] at hsucc
      cases e with
      | none => rfl
      | some err => simp at hsucc

/-- C1 (amended): for every acyclic workflow graph (witnessed by a rank
function increasing along connections) whose connection sources exist among
its nodes, and every Run of it (from an empty step-run table) that finishes
without error (so no node fails), every node of the workflow is reachable
from some source node and is executed at least once — it has at least one
completed step-run in the Run — and no other node is ever executed: every
step-run row belongs to a reachable workflow node.  (`Exactly once` does not
hold; see the counterexample.) -/
theorem claim_C1 (env : Env) (wf : Workflow) (fuel : Nat)
    (execution : WorkflowExecution) (rank : Nat → Nat)
    (hrank : ∀ c ∈ wf.connections, rank c.sourceNodeId < rank c.targetNodeId)
    (hclosed : ∀ c ∈ wf.connections, ∃ m ∈ wf.nodes, m.id = c.sourceNodeId)
    (hsucc : (Engine.executeWorkflowInternal env wf fuel execution ⟨[], []⟩).2.2 = none) :
    (∀ n ∈ wf.nodes, Reachable wf n.id ∧
      ∃ ne ∈ (Engine.executeWorkflowInternal env wf fuel execution ⟨[], []⟩).2.1.stepRuns,
        ne.workflowExecutionId = execution.id ∧ ne.nodeId = n.id ∧
        ne.status = "completed") ∧
    (∀ ne ∈ (Engine.executeWorkflowInternal env wf fuel execution ⟨[], []⟩).2.1.stepRuns,
      Reachable wf ne.nodeId ∧ ∃ m ∈ wf.nodes, m.id = ne.nodeId) := by
  obtain ⟨ci, hrs⟩ := internal_success_cases env wf fuel execution ⟨[], []⟩ hsucc
  have hinv0 : engineInv wf execution.id (⟨[], []⟩ : EngineState) := by
    intro t hex hrt
    obtain ⟨c, hc, hct⟩ := hex
    obtain ⟨ne, hmem, _⟩ := hrt c hc hct
    simp at hmem
  have hic := runStartNodes_inv_completed env wf ci fuel (Engine.startNodes wf)
    execution.id ⟨[], []⟩ _ hrs hinv0
  have hreachAll := all_nodes_reachable wf rank hrank hclosed
  have main : ∀ v (n : Node), n ∈ wf.nodes → rank n.id < v →
      completedIn (Engine.executeWorkflowInternal env wf fuel execution ⟨[], []⟩).2.1
        execution.id n.id := by
    intro v
    induction v with
    | zero => intro n _ h; omega
    | succ v ih =>
        intro n hn hv
        by_cases hinc : ∀ c ∈ wf.connections, c.targetNodeId ≠ n.id
        · have hmem : n ∈ Engine.startNodes wf := by
            rw [Engine.startNodes, List.mem_filter]
            refine ⟨hn, ?_⟩
            simp only [Bool.not_eq_true', List.any_eq_false]
            intro c hc
            simp [hinc c hc]
          exact hic.2 n hmem
        · push_neg at hinc
          have hready : readyProp wf execution.id
              (Engine.executeWorkflowInternal env wf fuel execution ⟨[], []⟩).2.1 n.id := by
            intro c hc hct
            obtain ⟨m, hm, hmid⟩ := hclosed c hc
            have hr2 : rank c.sourceNodeId < rank n.id := by
              have := hrank c hc
              rwa [hct] at this
            have := ih m hm (by rw [hmid]; omega)
            rwa [hmid] at this
          exact hic.1 n.id hinc hready
  constructor
  · intro n hn
    exact ⟨hreachAll n hn, main (rank n.id + 1) n hn (by omega)⟩
  · have hsreach : ∀ n ∈ Engine.startNodes wf, Reachable wf n.id := by
      intro n hn
      have p := startNodes_no_incoming wf n hn
      exact Reachable.source n p.1 p.2
    have h := runStartNodes_rowsOk env wf ci fuel (Engine.startNodes wf)
      execution.id ⟨[], []⟩ hsreach (by intro ne hmem; simp at hmem)
    rw [hrs] at h
    exact h

/-- C1 counterexample: the triangle 1→2, 1→3, 2→3 is acyclic (node ids are a
topological rank) and its Run finishes without error, yet the reachable node
3 gets TWO step-runs, not one: after 3 runs (triggered through 2), node 1's
successor loop re-checks connection 1→3, finds all inputs still completed,
and executes 3 again. -/
theorem claim_C1_counterexample :
    (∀ c ∈ triWf.connections, c.sourceNodeId < c.targetNodeId) ∧
    (Engine.executeWorkflowInternal noopEnv triWf 10 run0 ⟨[], []⟩).2.2 = none ∧
    ((Engine.executeWorkflowInternal noopEnv triWf 10 run0 ⟨[], []⟩).2.1.stepRuns.filter
      fun ne => ne.nodeId == 3).length = 2 :=
  ⟨by decide, rfl, rfl⟩

/-- Witness for C1 on the concrete diamond workflow, with the identity as
rank function. -/
theorem claim_C1_witness :
    (∀ c ∈ diaWf.connections, (fun x => x) c.sourceNodeId < (fun x => x) c.targetNodeId) ∧
    (∀ c ∈ diaWf.connections, ∃ m ∈ diaWf.nodes, m.id = c.sourceNodeId) ∧
    (Engine.executeWorkflowInternal noopEnv diaWf 10 run0 ⟨[], []⟩).2.2 = none ∧
    (Reachable diaWf 4 ∧
      ∃ ne ∈ (Engine.executeWorkflowInternal noopEnv diaWf 10 run0 ⟨[], []⟩).2.1.stepRuns,
        ne.workflowExecutionId = 7 ∧ ne.nodeId = 4 ∧ ne.status = "completed") :=
  ⟨by decide, by decide, rfl,
   (claim_C1 noopEnv diaWf 10 run0 (fun x => x) (by decide) (by decide) rfl).1
     ⟨4, "noop", .obj .nil⟩ (by decide)⟩

/-- Models `queue.TaskMessage` (`queue.go`): `task_type` plus the raw
`json.RawMessage` payload bytes (kept as a string of characters). -/
structure TaskMessage where
  taskType : String
  payload : String
  deriving DecidableEq

/-- The Redis instance behind the queue client: one list of serialized
envelope strings per queue name (`RPush` appends on the right, `BLPop` pops
on the left). -/
structure RedisState where
  queues : String → List String

/-- Go's lowercase hex digits, as used in `encoding/json`'s `\u00xx`
escapes. -/
def hexDigit : Nat → Char
  | 0 => '0' | 1 => '1' | 2 => '2' | 3 => '3' | 4 => '4'
  | 5 => '5' | 6 => '6' | 7 => '7' | 8 => '8' | 9 => '9'
  | 10 => 'a' | 11 => 'b' | 12 => 'c' | 13 => 'd' | 14 => 'e' | 15 => 'f'
  | _ => '0'

/-- The four hex digits of a (BMP) code point for a `\uXXXX` escape. -/
def hex4 (n : Nat) : List Char :=
  [hexDigit (n / 4096 % 16), hexDigit (n / 256 % 16), hexDigit (n / 16 % 16),
   hexDigit (n % 16)]

/-- How `encoding/json` escapes one character inside a string literal:
quotes and backslashes, the named control escapes `\n` `\r` `\t`, `\u00xx`
for the remaining control characters, and (HTML-safe mode, the `Marshal`
default) `<`, `>`, `&`, U+2028 and U+2029 as `\uXXXX`; everything else is
emitted verbatim. -/
def escapeChar (c : Char) : List Char :=
  if c = '"' then ['\\', '"']
  else if c = '\\' then ['\\', '\\']
  else if c = '\n' then ['\\', 'n']
  else if c = '\r' then ['\\', 'r']
  else if c = '\t' then ['\\', 't']
  else if c.toNat < 32 || c = '<' || c = '>' || c = '&' ||
      c.toNat = 8232 || c.toNat = 8233 then
    '\\' :: 'u' :: hex4 c.toNat
  else [c]

/-- The escaped body of a string literal. -/
def escapeBody : List Char → List Char
  | [] => []
  | c :: cs => escapeChar c ++ escapeBody cs

/-- A whole JSON string literal, quotes included. -/
def escapeString (cs : List Char) : List Char :=
  '"' :: escapeBody cs ++ ['"']

/-- Go's decimal digits. -/
def digitChar : Nat → Char
  | 0 => '0' | 1 => '1' | 2 => '2' | 3 => '3' | 4 => '4'
  | 5 => '5' | 6 => '6' | 7 => '7' | 8 => '8' | 9 => '9'
  | _ => '0'

/-- The decimal digits of a natural number, most significant first. -/
def natToChars (n : Nat) : List Char :=
  if n = 0 then ['0'] else ((Nat.digits 10 n).map digitChar).reverse

/-- The decimal form of an integer, as `encoding/json` emits it. -/
def intToChars (i : Int) : List Char :=
  if i < 0 then '-' :: natToChars i.natAbs else natToChars i.natAbs

mutual

/-- Compact `json.Marshal` output for a document, character for character
(map fields are emitted in binding order; Go sorts map keys, but the only
ordering the queue claims depend on is the envelope struct's fixed field
order, which is modelled exactly in `marshalTaskMessage`). -/
def serializeJson : Json → List Char
  | .null => ['n', 'u', 'l', 'l']
  | .bool b => if b then ['t', 'r', 'u', 'e'] else ['f', 'a', 'l', 's', 'e']
  | .num i => intToChars i
  | .str s => escapeString s.toList
  | .arr xs => '[' :: serializeArr xs ++ [']']
  | .obj fs => '\x7b' :: serializeObj fs ++ ['\x7d']

/-- Comma-joined serialized elements. -/
def serializeArr : JArr → List Char
  | .nil => []
  | .cons x .nil => serializeJson x
  | .cons x (JArr.cons y tl) =>
      serializeJson x ++ ',' :: serializeArr (JArr.cons y tl)

/-- Comma-joined serialized `"key":value` members. -/
def serializeObj : JObj → List Char
  | .nil => []
  | .cons k v .nil => escapeString k.toList ++ ':' :: serializeJson v
  | .cons k v (JObj.cons k2 v2 tl) =>
      escapeString k.toList ++ ':' :: serializeJson v ++
        ',' :: serializeObj (JObj.cons k2 v2 tl)

end

/-- Consumes a string-literal body up to and including the closing quote,
returning the consumed span (closing quote included) and the rest; a
backslash always consumes the following character, as the stdlib scanner
does on valid input. -/
def scanStringBody : List Char → Option (List Char × List Char)
  | [] => none
  | c :: rest =>
      if c = '"' then some (['"'], rest)
      else if c = '\\' then
        match rest with
        | [] => none
        | c2 :: rest2 =>
            match scanStringBody rest2 with
            | some (sp, rem) => some (c :: c2 :: sp, rem)
            | none => none
      else
        match scanStringBody rest with
        | some (sp, rem) => some (c :: sp, rem)
        | none => none

/-- Consumes an exact literal (`true`, `false`, `null`). -/
def scanLiteral (lit : List Char) (s : List Char) : Option (List Char × List Char) :=
  if charsLeading lit s then some (lit, s.drop lit.length) else none

/-- Longest leading run of decimal digits. -/
def scanDigits : List Char → List Char × List Char
  | [] => ([], [])
  | c :: rest =>
      if c.isDigit then
        let (sp, rem) := scanDigits rest
        (c :: sp, rem)
      else ([], c :: rest)

/-- Consumes an (integer) number: optional minus sign then digits. -/
def scanNumber (s : List Char) : Option (List Char × List Char) :=
  match s with
  | [] => none
  | c :: rest =>
      if c = '-' then
        match scanDigits rest with
        | ([], _) => none
        | (sp, rem) => some ('-' :: sp, rem)
      else
        match scanDigits (c :: rest) with
        | ([], _) => none
        | (sp, rem) => some (sp, rem)

/-- The three states of the stdlib value scanner used here: a whole value,
the element list of an array (up to and including the closing bracket), and
the member list of an object. -/
inductive ScanMode where
  | value : ScanMode
  | elems (close : Char) : ScanMode
  | members : ScanMode

/-- Models the stdlib decoder's scan of one compact JSON value (the form
`Marshal` emits, which is the only form the queue ever carries): returns
the consumed span and the rest.  Fuel bounds the nesting depth. -/
def scanGo : Nat → ScanMode → List Char → Option (List Char × List Char)
  | 0, _, _ => none
  | fuel + 1, .value, s =>
      match s with
      | [] => none
      | c :: rest =>
          if c = '"' then
            match scanStringBody rest with
            | some (sp, rem) => some ('"' :: sp, rem)
            | none => none
          else if c = '[' then
            match rest with
            | [] => none
            | r :: rest2 =>
                if r = ']' then some (['[', ']'], rest2)
                else
                  match scanGo fuel (.elems ']') (r :: rest2) with
                  | some (sp, rem) => some ('[' :: sp, rem)
                  | none => none
          else if c = '\x7b' then
            match rest with
            | [] => none
            | r :: rest2 =>
                if r = '\x7d' then some (['\x7b', '\x7d'], rest2)
                else
                  match scanGo fuel .members (r :: rest2) with
                  | some (sp, rem) => some ('\x7b' :: sp, rem)
                  | none => none
          else if c = 't' then scanLiteral ['t', 'r', 'u', 'e'] (c :: rest)
          else if c = 'f' then scanLiteral ['f', 'a', 'l', 's', 'e'] (c :: rest)
          else if c = 'n' then scanLiteral ['n', 'u', 'l', 'l'] (c :: rest)
          else scanNumber (c :: rest)
  | fuel + 1, .elems close, s =>
      match scanGo fuel .value s with
      | none => none
      | some (sp, rem) =>
          match rem with
          | [] => none
          | c :: rem2 =>
              if c = ',' then
                match scanGo fuel (.elems close) rem2 with
                | some (sp2, rem3) => some (sp ++ c :: sp2, rem3)
                | none => none
              else if c = close then some (sp ++ [c], rem2)
              else none
  | fuel + 1, .members, s =>
      match s with
      | [] => none
      | c :: rest =>
          if c = '"' then
            match scanStringBody rest with
            | none => none
            | some (ksp, rem) =>
                match rem with
                | [] => none
                | r0 :: rem2 =>
                    if r0 = ':' then
                      match scanGo fuel .value rem2 with
                      | none => none
                      | some (vsp, rem3) =>
                          match rem3 with
                          | [] => none
                          | r :: rem4 =>
                              if r = ',' then
                                match scanGo fuel .members rem4 with
                                | some (sp2, rem5) =>
                                    some ('"' :: ksp ++ ':' :: vsp ++ ',' :: sp2, rem5)
                                | none => none
                              else if r = '\x7d' then
                                some ('"' :: ksp ++ ':' :: vsp ++ ['\x7d'], rem4)
                              else none
                    else none
          else none

/-- Hex digit value, both cases (the decoder side). -/
def hexVal (c : Char) : Option Nat :=
  if '0' ≤ c ∧ c ≤ '9' then some (c.toNat - '0'.toNat)
  else if 'a' ≤ c ∧ c ≤ 'f' then some (c.toNat - 'a'.toNat + 10)
  else if 'A' ≤ c ∧ c ≤ 'F' then some (c.toNat - 'A'.toNat + 10)
  else none

/-- The named escapes the decoder accepts. -/
def escDecode (e : Char) : Option Char :=
  if e = '"' ∨ e = '\\' ∨ e = '/' then some e
  else if e = 'n' then some '\n'
  else if e = 'r' then some '\r'
  else if e = 't' then some '\t'
  else if e = 'b' then some '\x08'
  else if e = 'f' then some '\x0c'
  else none

/-- Decodes a string-literal body up to the closing quote: returns the
decoded characters and the rest after the quote. -/
def parseStringBody : List Char → Option (List Char × List Char)
  | [] => none
  | c :: rest =>
      if c = '"' then some ([], rest)
      else if c = '\\' then
        match rest with
        | [] => none
        | e :: rest2 =>
            if e = 'u' then
              match rest2 with
              | h1 :: h2 :: h3 :: h4 :: rest3 =>
                  match hexVal h1, hexVal h2, hexVal h3, hexVal h4 with
                  | some v1, some v2, some v3, some v4 =>
                      match parseStringBody rest3 with
                      | some (cs, rem) =>
                          some (Char.ofNat (v1 * 4096 + v2 * 256 + v3 * 16 + v4) :: cs, rem)
                      | none => none
                  | _, _, _, _ => none
              | _ => none
            else
              match escDecode e with
              | some d =>
                  match parseStringBody rest2 with
                  | some (cs, rem) => some (d :: cs, rem)
                  | none => none
              | none => none
      else
        match parseStringBody rest with
        | some (cs, rem) => some (c :: cs, rem)
        | none => none

/-- Parses the member list of a compact object into `(key, raw value span)`
pairs, consuming the closing brace (the struct decoder reads every member,
keeps the fields it knows by tag and skips the rest). -/
def parseMembers : Nat → List Char → Option (List (List Char × List Char) × List Char)
  | 0, _ => none
  | fuel + 1, s =>
      match s with
      | [] => none
      | c :: rest =>
          if c = '"' then
            match parseStringBody rest with
            | none => none
            | some (key, rem) =>
                match rem with
                | [] => none
                | r0 :: rem2 =>
                    if r0 = ':' then
                      match scanGo fuel .value rem2 with
                      | none => none
                      | some (raw, rem3) =>
                          match rem3 with
                          | [] => none
                          | r :: rem4 =>
                              if r = ',' then
                                match parseMembers fuel rem4 with
                                | some (ms, rem5) => some ((key, raw) :: ms, rem5)
                                | none => none
                              else if r = '\x7d' then some ([(key, raw)], rem4)
                              else none
                    else none
          else none

/-- Models `json.Unmarshal` of envelope bytes into a `TaskMessage` struct
(`task_type` tagged string, `payload` a `json.RawMessage` capturing the raw
value bytes); unknown members are ignored and missing members leave the Go
zero values, as the stdlib does.  Only the compact shapes `Marshal` emits
are accepted — nothing else ever reaches the queue. -/
def unmarshalTaskMessage (s : String) : Except String TaskMessage :=
  match s.toList with
  | [] => .error "invalid character in task"
  | c :: rest =>
      if c = '\x7b' then
      if rest = ['\x7d'] then .ok ⟨"", ""⟩
      else
      match parseMembers (2 * rest.length + 2) rest with
      | some (ms, []) =>
          let tt :=
            match ms.find? fun m => m.1 == "task_type".toList with
            | some (_, raw) =>
                match raw with
                | [] => ""
                | rc :: rraw =>
                    if rc = '"' then
                      match parseStringBody rraw with
                      | some (v, []) => v.asString
                      | _ => ""
                    else ""
            | none => ""
          let pl :=
            match ms.find? fun m => m.1 == "payload".toList with
            | some (_, raw) => raw.asString
            | none => ""
          .ok ⟨tt, pl⟩
      | _ => .error "invalid character in task"
      else .error "invalid character in task"

/-- `json.Marshal` of a `TaskMessage` struct: the two tagged fields in
declaration order, the `RawMessage` payload embedded verbatim (it is
already compact). -/
def marshalTaskMessage (t : TaskMessage) : String :=
  ('\x7b' :: escapeString "task_type".toList ++ ':' :: escapeString t.taskType.toList ++
    ',' :: escapeString "payload".toList ++ ':' :: t.payload.toList ++ ['\x7d']).asString

/-- Models `QueueClient.EnqueueTask` (`queue.go` lines 44–72): marshal the
payload, wrap it with the task type in a `TaskMessage`, marshal that, and
`RPush` the bytes onto the named queue.  (For the `Json` documents of the
model, `json.Marshal` cannot fail, and the Redis write is assumed
reachable, so no error path is taken.) -/
def EnqueueTask (st : RedisState) (queueName taskType : String) (payload : Json) :
    RedisState × Option String :=
  let payloadBytes := (serializeJson payload).asString
  let taskBytes := marshalTaskMessage ⟨taskType, payloadBytes⟩
  ({ queues := fun q => if q = queueName then st.queues q ++ [taskBytes] else st.queues q },
   none)

/-- Models `QueueClient.DequeueTask` (`queue.go` lines 75–99): `BLPop` with
a timeout — an empty queue yields "no task" (`nil, nil`), not an error —
then unmarshal the popped envelope, turning a parse failure into the
`failed to unmarshal task` error. -/
def DequeueTask (st : RedisState) (queueName : String) :
    Except String (Option TaskMessage) × RedisState :=
  match st.queues queueName with
  | [] => (.ok none, st)
  | x :: rest =>
      let st' : RedisState :=
        { queues := fun q => if q = queueName then rest else st.queues q }
      match unmarshalTaskMessage x with
      | .ok task => (.ok (some task), st')
      | .error e => (.error ("failed to unmarshal task: " ++ e), st')

theorem charsLeading_append : ∀ (pre rest : List Char),
    charsLeading pre (pre ++ rest) = true
  | [], _ => rfl
  | c :: pre, rest => by simp [charsLeading, charsLeading_append pre rest]

theorem scanLiteral_append (lit rest : List Char) :
    scanLiteral lit (lit ++ rest) = some (lit, rest) := by
  unfold scanLiteral
  rw [if_pos (charsLeading_append lit rest), List.drop_left]

theorem hexDigit_ne (n : Nat) : hexDigit n ≠ '"' ∧ hexDigit n ≠ '\\' := by
  unfold hexDigit
  split <;> exact ⟨by decide, by decide⟩

theorem scanStringBody_cons_safe (c : Char) (s : List Char)
    (h1 : c ≠ '"') (h2 : c ≠ '\\') :
    scanStringBody (c :: s) =
      match scanStringBody s with
      | some (sp, rem) => some (c :: sp, rem)
      | none => none := by
  rw [scanStringBody.eq_def]
  dsimp only
  rw [if_neg h1, if_neg h2]

theorem scanStringBody_esc2 (x : Char) (s : List Char) :
    scanStringBody ('\\' :: x :: s) =
      match scanStringBody s with
      | some (sp, rem) => some ('\\' :: x :: sp, rem)
      | none => none := by
  rw [scanStringBody.eq_def]
  dsimp only
  rw [if_neg (by decide), if_pos rfl]

theorem scanStringBody_hex (h1 h2 h3 h4 : Char) (s : List Char)
    (hh1 : h1 ≠ '"' ∧ h1 ≠ '\\') (hh2 : h2 ≠ '"' ∧ h2 ≠ '\\')
    (hh3 : h3 ≠ '"' ∧ h3 ≠ '\\') (hh4 : h4 ≠ '"' ∧ h4 ≠ '\\') :
    scanStringBody (h1 :: h2 :: h3 :: h4 :: s) =
      match scanStringBody s with
      | some (sp, rem) => some (h1 :: h2 :: h3 :: h4 :: sp, rem)
      | none => none := by
  rw [scanStringBody_cons_safe h1 _ hh1.1 hh1.2,
    scanStringBody_cons_safe h2 _ hh2.1 hh2.2,
    scanStringBody_cons_safe h3 _ hh3.1 hh3.2,
    scanStringBody_cons_safe h4 _ hh4.1 hh4.2]
  rcases scanStringBody s with _ | ⟨sp, rem⟩ <;> rfl

/-- The scanner consumes exactly an escaped body plus its closing quote. -/
theorem scanStringBody_escapeBody : ∀ (cs rest : List Char),
    scanStringBody (escapeBody cs ++ '"' :: rest) = some (escapeBody cs ++ ['"'], rest)
  | [], rest => by
      simp only [escapeBody, List.nil_append]
      rw [scanStringBody.eq_def]
      dsimp only
      rw [if_pos rfl]
  | c :: cs, rest => by
      have ih := scanStringBody_escapeBody cs rest
      rw [escapeBody]
      unfold escapeChar
      by_cases hq : c = '"'
      · rw [if_pos hq]
        simp only [List.cons_append, List.nil_append, List.append_assoc]
        rw [scanStringBody_esc2, ih]
      · rw [if_neg hq]
        by_cases hb : c = '\\'
        · rw [if_pos hb]
          simp only [List.cons_append, List.nil_append, List.append_assoc]
          rw [scanStringBody_esc2, ih]
        · rw [if_neg hb]
          by_cases hn : c = '\n'
          · rw [if_pos hn]
            simp only [List.cons_append, List.nil_append, List.append_assoc]
            rw [scanStringBody_esc2, ih]
          · rw [if_neg hn]
            by_cases hr : c = '\r'
            · rw [if_pos hr]
              simp only [List.cons_append, List.nil_append, List.append_assoc]
              rw [scanStringBody_esc2, ih]
            · rw [if_neg hr]
              by_cases ht : c = '\t'
              · rw [if_pos ht]
                simp only [List.cons_append, List.nil_append, List.append_assoc]
                rw [scanStringBody_esc2, ih]
              · rw [if_neg ht]
                by_cases hu : (c.toNat < 32 || c = '<' || c = '>' || c = '&' ||
                    c.toNat = 8232 || c.toNat = 8233) = true
                · rw [if_pos hu]
                  simp only [hex4, List.cons_append, List.nil_append, List.append_assoc]
                  rw [scanStringBody_esc2,
                    scanStringBody_hex _ _ _ _ _ (hexDigit_ne _) (hexDigit_ne _)
                      (hexDigit_ne _) (hexDigit_ne _), ih]
                · rw [if_neg hu]
                  simp only [List.cons_append, List.nil_append]
                  rw [scanStringBody_cons_safe c _ hq hb, ih]

theorem hexVal_hexDigit (n : Nat) (h : n < 16) : hexVal (hexDigit n) = some n := by
  interval_cases n <;> rfl

theorem parseStringBody_cons_safe (c : Char) (s : List Char)
    (h1 : c ≠ '"') (h2 : c ≠ '\\') :
    parseStringBody (c :: s) =
      match parseStringBody s with
      | some (cs, rem) => some (c :: cs, rem)
      | none => none := by
  rw [parseStringBody.eq_def]
  dsimp only
  rw [if_neg h1, if_neg h2]

theorem parseStringBody_esc2 (e d : Char) (s : List Char)
    (hne : e ≠ 'u') (hd : escDecode e = some d) :
    parseStringBody ('\\' :: e :: s) =
      match parseStringBody s with
      | some (cs, rem) => some (d :: cs, rem)
      | none => none := by
  rw [parseStringBody.eq_def]
  dsimp only
  rw [if_neg (by decide), if_pos rfl, if_neg hne, hd]

/-- The decoder inverts `encoding/json`'s string escaping exactly. -/
theorem parseStringBody_escapeBody : ∀ (cs rest : List Char),
    parseStringBody (escapeBody cs ++ '"' :: rest) = some (cs, rest)
  | [], rest => by
      simp only [escapeBody, List.nil_append]
      rw [parseStringBody.eq_def]
      dsimp only
      rw [if_pos rfl]
  | c :: cs, rest => by
      have ih := parseStringBody_escapeBody cs rest
      rw [escapeBody]
      unfold escapeChar
      by_cases hq : c = '"'
      · rw [if_pos hq]
        simp only [List.cons_append, List.nil_append, List.append_assoc]
        rw [parseStringBody_esc2 '"' '"' _ (by decide) rfl, ih, hq]
      · rw [if_neg hq]
        by_cases hb : c = '\\'
        · rw [if_pos hb]
          simp only [List.cons_append, List.nil_append, List.append_assoc]
          rw [parseStringBody_esc2 '\\' '\\' _ (by decide) rfl, ih, hb]
        · rw [if_neg hb]
          by_cases hn : c = '\n'
          · rw [if_pos hn]
            simp only [List.cons_append, List.nil_append, List.append_assoc]
            rw [parseStringBody_esc2 'n' '\n' _ (by decide) rfl, ih, hn]
          · rw [if_neg hn]
            by_cases hr : c = '\r'
            · rw [if_pos hr]
              simp only [List.cons_append, List.nil_append, List.append_assoc]
              rw [parseStringBody_esc2 'r' '\r' _ (by decide) rfl, ih, hr]
            · rw [if_neg hr]
              by_cases ht : c = '\t'
              · rw [if_pos ht]
                simp only [List.cons_append, List.nil_append, List.append_assoc]
                rw [parseStringBody_esc2 't' '\t' _ (by decide) rfl, ih, ht]
              · rw [if_neg ht]
                by_cases hu : (c.toNat < 32 || c = '<' || c = '>' || c = '&' ||
                    c.toNat = 8232 || c.toNat = 8233) = true
                · rw [if_pos hu]
                  have hlt : c.toNat < 65536 := by
                    simp only [Bool.or_eq_true, decide_eq_true_eq] at hu
                    rcases hu with ((((h | h) | h) | h) | h) | h
                    · omega
                    · rw [h]; decide
                    · rw [h]; decide
                    · rw [h]; decide
                    · omega
                    · omega
                  simp only [hex4, List.cons_append, List.nil_append, List.append_assoc]
                  rw [parseStringBody.eq_def]
                  dsimp only
                  rw [if_neg (by decide), if_pos rfl, if_pos rfl]
                  rw [hexVal_hexDigit _ (Nat.mod_lt _ (by omega)),
                    hexVal_hexDigit _ (Nat.mod_lt _ (by omega)),
                    hexVal_hexDigit _ (Nat.mod_lt _ (by omega)),
                    hexVal_hexDigit _ (Nat.mod_lt _ (by omega))]
                  dsimp only
                  rw [ih]
                  have harith : c.toNat / 4096 % 16 * 4096 + c.toNat / 256 % 16 * 256 +
                      c.toNat / 16 % 16 * 16 + c.toNat % 16 = c.toNat := by omega
                  rw [harith, Char.ofNat_toNat]
                · rw [if_neg hu]
                  simp only [List.cons_append, List.nil_append]
                  rw [parseStringBody_cons_safe c _ hq hb, ih]

/-- Whether a value may stop being scanned here: the next character (if
any) is not a digit, so a number cannot run on into it. -/
def delimOk : List Char → Bool
  | [] => true
  | c :: _ => !c.isDigit

theorem digitChar_isDigit (d : Nat) : (digitChar d).isDigit = true := by
  unfold digitChar
  split <;> decide

theorem natToChars_digits (n : Nat) : ∀ c ∈ natToChars n, c.isDigit = true := by
  unfold natToChars
  split
  · intro c hc
    simp only [List.mem_singleton] at hc
    rw [hc]
    decide
  · intro c hc
    simp only [List.mem_reverse, List.mem_map] at hc
    obtain ⟨d, _, hd⟩ := hc
    rw [← hd]
    exact digitChar_isDigit d

theorem natToChars_ne_nil (n : Nat) : natToChars n ≠ [] := by
  unfold natToChars
  split
  · simp
  · next h =>
    simp only [ne_eq, List.reverse_eq_nil_iff, List.map_eq_nil_iff]
    exact Nat.digits_ne_nil_iff_ne_zero.2 h

theorem natToChars_head (n : Nat) :
    ∃ d ds, natToChars n = d :: ds ∧ d.isDigit = true := by
  rcases h : natToChars n with _ | ⟨d, ds⟩
  · exact absurd h (natToChars_ne_nil n)
  · exact ⟨d, ds, rfl, natToChars_digits n d (by rw [h]; simp)⟩

theorem intToChars_head (i : Int) :
    ∃ e es, intToChars i = e :: es ∧ (e = '-' ∨ e.isDigit = true) := by
  unfold intToChars
  obtain ⟨d, ds, hnat, hd⟩ := natToChars_head i.natAbs
  split
  · exact ⟨'-', natToChars i.natAbs, rfl, Or.inl rfl⟩
  · exact ⟨d, ds, hnat, Or.inr hd⟩

/-- The characters a serialized value can start with are never `"`, `[`,
`\x7b`, `t`, `f` or `n` when the value is a number, and so on — the head
character always identifies the branch the scanner takes. -/
theorem num_head_ne (e : Char) (he : e = '-' ∨ e.isDigit = true) :
    e ≠ '"' ∧ e ≠ '[' ∧ e ≠ '\x7b' ∧ e ≠ 't' ∧ e ≠ 'f' ∧ e ≠ 'n' := by
  rcases he with rfl | h
  · exact ⟨by decide, by decide, by decide, by decide, by decide, by decide⟩
  · refine ⟨?_, ?_, ?_, ?_, ?_, ?_⟩ <;>
      (intro hrfl; rw [hrfl] at h; exact absurd h (by decide))

theorem scanDigits_append : ∀ (ds rest : List Char),
    (∀ c ∈ ds, c.isDigit = true) → delimOk rest = true →
    scanDigits (ds ++ rest) = (ds, rest)
  | [], rest, _, hrest => by
      rcases rest with _ | ⟨c, rs⟩
      · rfl
      · simp only [delimOk, Bool.not_eq_true'] at hrest
        rw [List.nil_append, scanDigits.eq_def]
        dsimp only
        rw [if_neg (by rw [hrest]; simp)]
  | c :: ds, rest, hds, hrest => by
      rw [List.cons_append, scanDigits.eq_def]
      dsimp only
      rw [if_pos (hds c (by simp)),
        scanDigits_append ds rest (fun x hx => hds x (by simp [hx])) hrest]

theorem scanNumber_intToChars (i : Int) (rest : List Char)
    (hrest : delimOk rest = true) :
    scanNumber (intToChars i ++ rest) = some (intToChars i, rest) := by
  unfold intToChars
  obtain ⟨d, ds, hnat, hd⟩ := natToChars_head i.natAbs
  split
  · rw [List.cons_append, scanNumber.eq_def]
    dsimp only
    rw [if_pos rfl, scanDigits_append _ _ (natToChars_digits _) hrest, hnat]
  · rw [hnat, List.cons_append, scanNumber.eq_def]
    dsimp only
    have hdm : ¬ d = '-' := by
      intro h
      rw [h] at hd
      exact absurd hd (by decide)
    rw [if_neg hdm, ← List.cons_append, ← hnat,
      scanDigits_append _ _ (natToChars_digits _) hrest, hnat]

mutual

/-- Structural size of a document, used as the fuel bound for the scanner. -/
def jsize : Json → Nat
  | .null => 1
  | .bool _ => 1
  | .num _ => 1
  | .str _ => 1
  | .arr xs => asize xs + 1
  | .obj fs => osize fs + 1

/-- See `jsize`. -/
def asize : JArr → Nat
  | .nil => 1
  | .cons x tl => jsize x + asize tl + 1

/-- See `jsize`. -/
def osize : JObj → Nat
  | .nil => 1
  | .cons _ v tl => jsize v + osize tl + 1

end

theorem jsize_pos : ∀ v : Json, 1 ≤ jsize v
  | .null => le_refl _
  | .bool _ => le_refl _
  | .num _ => le_refl _
  | .str _ => le_refl _
  | .arr _ => by rw [jsize]; omega
  | .obj _ => by rw [jsize]; omega

/-- The first character of a serialized value identifies its kind. -/
theorem serializeJson_head (v : Json) : ∃ c cs, serializeJson v = c :: cs ∧
    (c = '"' ∨ c = '[' ∨ c = '\x7b' ∨ c = 't' ∨ c = 'f' ∨ c = 'n' ∨
     c = '-' ∨ c.isDigit = true) := by
  cases v with
  | null => exact ⟨'n', _, rfl, by simp⟩
  | bool b =>
      cases b
      · exact ⟨'f', _, rfl, by simp⟩
      · exact ⟨'t', _, rfl, by simp⟩
  | num i =>
      obtain ⟨e, es, hie, he⟩ := intToChars_head i
      exact ⟨e, es, hie, by tauto⟩
  | str s => exact ⟨'"', _, rfl, by simp⟩
  | arr xs => exact ⟨'[', _, rfl, by simp⟩
  | obj fs => exact ⟨'\x7b', _, rfl, by simp⟩

theorem serializeArr_cons_head (x : Json) (tl : JArr) :
    ∃ c cs, serializeArr (JArr.cons x tl) = c :: cs ∧
    (c = '"' ∨ c = '[' ∨ c = '\x7b' ∨ c = 't' ∨ c = 'f' ∨ c = 'n' ∨
     c = '-' ∨ c.isDigit = true) := by
  obtain ⟨c, cs, hsj, halt⟩ := serializeJson_head x
  cases tl with
  | nil => exact ⟨c, cs, by rw [serializeArr, hsj], halt⟩
  | cons y tl2 =>
      exact ⟨c, cs ++ ',' :: serializeArr (JArr.cons y tl2),
        by rw [serializeArr, hsj, List.cons_append], halt⟩

theorem serializeObj_cons_head (k : String) (v : Json) (tl : JObj) :
    ∃ cs, serializeObj (JObj.cons k v tl) = '"' :: cs := by
  cases tl with
  | nil =>
      exact ⟨(escapeBody k.toList ++ ['"']) ++ ':' :: serializeJson v,
        by rw [serializeObj, escapeString]; simp [List.append_assoc]⟩
  | cons k2 v2 tl2 =>
      exact ⟨(escapeBody k.toList ++ ['"']) ++ ':' :: serializeJson v ++
          ',' :: serializeObj (JObj.cons k2 v2 tl2),
        by rw [serializeObj, escapeString]; simp [List.append_assoc]⟩

mutual

/-- The scanner consumes exactly the `Marshal` output of any document. -/
theorem scanGo_value : ∀ (v : Json) (fuel : Nat) (rest : List Char),
    jsize v ≤ fuel → delimOk rest = true →
    scanGo fuel .value (serializeJson v ++ rest) = some (serializeJson v, rest)
  | v, 0, _, hf, _ => by
      have := jsize_pos v
      omega
  | .null, fuel + 1, rest, _, _ => by
      have h := scanLiteral_append ['n', 'u', 'l', 'l'] rest
      simp only [serializeJson, List.cons_append, List.nil_append, scanGo, if_true]
      simpa using h
  | .bool true, fuel + 1, rest, _, _ => by
      have h := scanLiteral_append ['t', 'r', 'u', 'e'] rest
      have hs : serializeJson (.bool true) = ['t', 'r', 'u', 'e'] := rfl
      rw [hs]
      simp only [List.cons_append, List.nil_append, scanGo, if_true]
      simpa using h
  | .bool false, fuel + 1, rest, _, _ => by
      have h := scanLiteral_append ['f', 'a', 'l', 's', 'e'] rest
      have hs : serializeJson (.bool false) = ['f', 'a', 'l', 's', 'e'] := rfl
      rw [hs]
      simp only [List.cons_append, List.nil_append, scanGo, if_true]
      simpa using h
  | .num i, fuel + 1, rest, _, hrest => by
      obtain ⟨e, es, hie, he⟩ := intToChars_head i
      have hne := num_head_ne e he
      simp only [serializeJson]
      rw [hie, List.cons_append]
      simp only [scanGo]
      rw [if_neg hne.1, if_neg hne.2.1, if_neg hne.2.2.1, if_neg hne.2.2.2.1,
        if_neg hne.2.2.2.2.1, if_neg hne.2.2.2.2.2, ← List.cons_append, ← hie,
        scanNumber_intToChars i rest hrest]
  | .str s0, fuel + 1, rest, _, _ => by
      simp only [serializeJson, escapeString, List.cons_append, List.append_assoc,
        List.singleton_append, scanGo, if_true]
      rw [scanStringBody_escapeBody]
      simp
  | .arr .nil, fuel + 1, rest, _, _ => by
      simp only [serializeJson, serializeArr, List.nil_append, List.cons_append,
        scanGo, if_true]
      rw [if_neg (by decide)]
  | .arr (.cons x tl), fuel + 1, rest, hf, _ => by
      obtain ⟨c0, cs0, hsa, halt⟩ := serializeArr_cons_head x tl
      have hc0 : ¬ c0 = ']' := by
        rcases halt with h | h | h | h | h | h | h | h
        all_goals first
          | (rw [h]; decide)
          | (intro hrfl; rw [hrfl] at h; exact absurd h (by decide))
      have hasize : asize (JArr.cons x tl) ≤ fuel := by
        rw [jsize] at hf
        omega
      have hrec := scanGo_elems x tl fuel ']' rest hasize (by decide) (by decide)
      rw [hsa, List.cons_append] at hrec
      simp only [serializeJson, List.cons_append, List.nil_append,
        List.append_assoc, List.singleton_append, scanGo, if_true]
      rw [hsa, List.cons_append]
      dsimp only
      rw [if_neg (by decide), if_neg hc0, hrec]
  | .obj .nil, fuel + 1, rest, _, _ => by
      simp only [serializeJson, serializeObj, List.nil_append, List.cons_append,
        scanGo, if_true]
      rw [if_neg (by decide), if_neg (by decide)]
  | .obj (.cons k v tl), fuel + 1, rest, hf, _ => by
      obtain ⟨cs0, hso⟩ := serializeObj_cons_head k v tl
      have hosize : osize (JObj.cons k v tl) ≤ fuel := by
        rw [jsize] at hf
        omega
      have hrec := scanGo_members k v tl fuel rest hosize
      rw [hso, List.cons_append] at hrec
      simp only [serializeJson, List.cons_append, List.nil_append,
        List.append_assoc, List.singleton_append, scanGo, if_true]
      rw [hso, List.cons_append]
      dsimp only
      rw [if_neg (by decide), if_neg (by decide), if_neg (by decide), hrec]

/-- The scanner consumes exactly a serialized element list plus the closing
bracket. -/
theorem scanGo_elems : ∀ (x : Json) (tl : JArr) (fuel : Nat) (close : Char)
    (rest : List Char), asize (JArr.cons x tl) ≤ fuel →
    close.isDigit = false → close ≠ ',' →
    scanGo fuel (.elems close) (serializeArr (JArr.cons x tl) ++ close :: rest)
      = some (serializeArr (JArr.cons x tl) ++ [close], rest)
  | x, tl, 0, _, _, hf, _, _ => by
      rw [asize] at hf
      omega
  | x, .nil, fuel + 1, close, rest, hf, hcd, hcc => by
      have hjx : jsize x ≤ fuel := by
        rw [asize, asize] at hf
        omega
      simp only [serializeArr, scanGo]
      rw [scanGo_value x fuel (close :: rest) hjx (by simp [delimOk, hcd])]
      dsimp only
      rw [if_neg hcc, if_pos rfl]
  | x, .cons y tl2, fuel + 1, close, rest, hf, hcd, hcc => by
      have hjx : jsize x ≤ fuel := by
        rw [asize] at hf
        omega
      have hrec : asize (JArr.cons y tl2) ≤ fuel := by
        rw [asize] at hf
        omega
      simp only [serializeArr, List.cons_append, List.append_assoc, scanGo]
      rw [scanGo_value x fuel
        (',' :: (serializeArr (JArr.cons y tl2) ++ close :: rest)) hjx
        (by simp only [delimOk]; decide)]
      dsimp only
      rw [if_pos rfl]
      rw [scanGo_elems y tl2 fuel close rest hrec hcd hcc]

/-- The scanner consumes exactly a serialized member list plus the closing
brace. -/
theorem scanGo_members : ∀ (k : String) (v : Json) (tl : JObj) (fuel : Nat)
    (rest : List Char), osize (JObj.cons k v tl) ≤ fuel →
    scanGo fuel .members (serializeObj (JObj.cons k v tl) ++ '\x7d' :: rest)
      = some (serializeObj (JObj.cons k v tl) ++ ['\x7d'], rest)
  | k, v, tl, 0, _, hf => by
      rw [osize] at hf
      omega
  | k, v, .nil, fuel + 1, rest, hf => by
      have hjv : jsize v ≤ fuel := by
        rw [osize, osize] at hf
        omega
      simp only [serializeObj, escapeString, List.cons_append, List.nil_append,
        List.append_assoc, List.singleton_append, scanGo, if_true]
      rw [scanStringBody_escapeBody]
      dsimp only
      rw [if_pos rfl]
      rw [scanGo_value v fuel ('\x7d' :: rest) hjv (by simp only [delimOk]; decide)]
      dsimp only
      rw [if_neg (by decide), if_pos rfl]
      simp
  | k, v, .cons k2 v2 tl2, fuel + 1, rest, hf => by
      have hjv : jsize v ≤ fuel := by
        rw [osize] at hf
        omega
      have hrec : osize (JObj.cons k2 v2 tl2) ≤ fuel := by
        rw [osize] at hf
        omega
      simp only [serializeObj, escapeString, List.cons_append, List.nil_append,
        List.append_assoc, List.singleton_append, scanGo, if_true]
      rw [scanStringBody_escapeBody]
      dsimp only
      rw [if_pos rfl]
      rw [scanGo_value v fuel
        (',' :: (serializeObj (JObj.cons k2 v2 tl2) ++ '\x7d' :: rest)) hjv
        (by simp only [delimOk]; decide)]
      dsimp only
      rw [if_pos rfl]
      rw [scanGo_members k2 v2 tl2 fuel rest hrec]
      simp

end

theorem toList_asString (l : List Char) : (List.asString l).toList = l := rfl

theorem asString_toList (s : String) : List.asString s.toList = s := rfl

mutual

/-- The node count of a document is at most twice its serialized length. -/
theorem jsize_le : ∀ v : Json, jsize v ≤ 2 * (serializeJson v).length
  | .null => by simp [jsize, serializeJson]
  | .bool b => by cases b <;> simp [jsize, serializeJson]
  | .num i => by
      obtain ⟨e, es, hie, _⟩ := intToChars_head i
      simp only [jsize, serializeJson, hie, List.length_cons]
      omega
  | .str s => by
      simp only [jsize, serializeJson, escapeString, List.length_cons,
        List.length_append]
      omega
  | .arr xs => by
      have h := asize_le xs
      simp only [jsize, serializeJson, List.length_cons, List.length_append] at *
      omega
  | .obj fs => by
      have h := osize_le fs
      simp only [jsize, serializeJson, List.length_cons, List.length_append] at *
      omega

/-- See `jsize_le`. -/
theorem asize_le : ∀ xs : JArr, asize xs ≤ 2 * (serializeArr xs).length + 3
  | .nil => by simp [asize, serializeArr]
  | .cons x .nil => by
      have h := jsize_le x
      simp only [asize, serializeArr]
      omega
  | .cons x (.cons y tl) => by
      have h1 := jsize_le x
      have h2 := asize_le (JArr.cons y tl)
      simp only [asize, serializeArr, List.length_append, List.length_cons] at *
      omega

/-- See `jsize_le`. -/
theorem osize_le : ∀ fs : JObj, osize fs ≤ 2 * (serializeObj fs).length + 3
  | .nil => by simp [osize, serializeObj]
  | .cons k v .nil => by
      have h := jsize_le v
      simp only [osize, serializeObj, List.length_append, List.length_cons]
      omega
  | .cons k v (.cons k2 v2 tl) => by
      have h1 := jsize_le v
      have h2 := osize_le (JObj.cons k2 v2 tl)
      simp only [osize, serializeObj, List.length_append, List.length_cons] at *
      omega

end

/-- The struct decoder applied to the exact member list `Marshal` emits:
both members are parsed, key and raw value span recovered verbatim. -/
theorem parseMembers_marshal (tt : String) (payload : Json) (fuel : Nat)
    (hf : jsize payload + 2 ≤ fuel) :
    parseMembers fuel
      ('"' :: (escapeBody "task_type".toList ++ '"' :: ':' :: '"' ::
        (escapeBody tt.toList ++ '"' :: ',' :: '"' ::
          (escapeBody "payload".toList ++ '"' :: ':' ::
            (serializeJson payload ++ ['\x7d'])))))
      = some ([("task_type".toList, '"' :: (escapeBody tt.toList ++ ['"'])),
               ("payload".toList, serializeJson payload)], []) := by
  obtain ⟨g, rfl⟩ : ∃ g, fuel = g + 2 := ⟨fuel - 2, by omega⟩
  have hg : jsize payload ≤ g := by omega
  have hv1 := scanGo_value (.str tt) (g + 1)
    (',' :: '"' :: (escapeBody "payload".toList ++ '"' :: ':' ::
      (serializeJson payload ++ ['\x7d'])))
    (by simp [jsize]) (by simp only [delimOk]; decide)
  simp only [serializeJson, escapeString, List.cons_append, List.nil_append,
    List.append_assoc, List.singleton_append] at hv1
  have hv2 := scanGo_value payload g ['\x7d'] hg (by decide)
  simp only [parseMembers, if_true]
  rw [parseStringBody_escapeBody]
  dsimp only
  rw [if_pos rfl]
  rw [hv1]
  dsimp only
  rw [if_pos rfl]
  rw [if_pos rfl]
  rw [parseStringBody_escapeBody]
  dsimp only
  rw [if_pos rfl]
  rw [hv2]
  dsimp only
  rw [if_neg (by decide), if_pos rfl]

/-- `json.Unmarshal` inverts `json.Marshal` on every envelope whose payload
is itself a `Marshal` output: task type and payload bytes come back
verbatim. -/
theorem unmarshalTaskMessage_marshal (tt : String) (payload : Json) :
    unmarshalTaskMessage (marshalTaskMessage
      ⟨tt, (serializeJson payload).asString⟩)
      = .ok ⟨tt, (serializeJson payload).asString⟩ := by
  simp only [marshalTaskMessage, unmarshalTaskMessage, toList_asString,
    escapeString, List.cons_append, List.nil_append, List.append_assoc,
    List.singleton_append, if_true]
  rw [if_neg (by simp)]
  have hL : jsize payload + 2 ≤ 2 * ('"' :: (escapeBody "task_type".toList ++
      '"' :: ':' :: '"' :: (escapeBody tt.toList ++ '"' :: ',' :: '"' ::
        (escapeBody "payload".toList ++ '"' :: ':' ::
          (serializeJson payload ++ ['\x7d']))))).length + 2 := by
    have h := jsize_le payload
    simp only [List.length_cons, List.length_append]
    omega
  rw [parseMembers_marshal tt payload _ hL]
  have e1 : ("task_type".toList == "task_type".toList) = true := rfl
  have e2 : ("task_type".toList == "payload".toList) = false := rfl
  have e3 : ("payload".toList == "payload".toList) = true := rfl
  dsimp only
  simp only [List.find?, e1, e2, e3]
  rw [if_pos trivial]
  rw [parseStringBody_escapeBody]
  dsimp only
  rw [asString_toList]

/-- C8: round-trip of the task queue — enqueueing (task type, payload) on an
empty queue and dequeuing from the same queue returns the envelope with the
identical task type and the serialized payload bytes, with no error on
either side. -/
theorem claim_C8 (st : RedisState) (q tt : String) (payload : Json)
    (h : st.queues q = []) :
    (EnqueueTask st q tt payload).2 = none ∧
    (DequeueTask (EnqueueTask st q tt payload).1 q).1
      = .ok (some ⟨tt, (serializeJson payload).asString⟩) := by
  refine ⟨rfl, ?_⟩
  have hq : (EnqueueTask st q tt payload).1.queues q
      = [marshalTaskMessage ⟨tt, (serializeJson payload).asString⟩] := by
    simp [EnqueueTask, h]
  simp only [DequeueTask, hq, unmarshalTaskMessage_marshal]

/-- Witness: a concrete `execute_workflow` envelope with payload
`{"workflow_id":7}` round-trips through the queue. -/
theorem claim_C8_witness :
    ({ queues := fun _ => [] } : RedisState).queues "workflow_tasks" = [] ∧
    ((EnqueueTask { queues := fun _ => [] } "workflow_tasks" "execute_workflow"
        (.obj (.cons "workflow_id" (.num 7) .nil))).2 = none ∧
     (DequeueTask (EnqueueTask { queues := fun _ => [] } "workflow_tasks"
        "execute_workflow" (.obj (.cons "workflow_id" (.num 7) .nil))).1
        "workflow_tasks").1
      = .ok (some ⟨"execute_workflow",
          (serializeJson (.obj (.cons "workflow_id" (.num 7) .nil))).asString⟩)) :=
  ⟨rfl, claim_C8 _ _ _ _ rfl⟩
